import Mathlib

/-!
Verification of the discretisation-and-solver core of the openpile
package (Python sources `analyze.py` and `construct.py`).

Conventions of the shallow embedding:

* vectors are lists of rationals, matrices lists of rows;
* the numerical kernel `openpile.core.kernel` (stiffness assembly,
  partitioned linear solve, `np.linalg.norm`) is consumed by
  `analyze.py` only through function calls and is not part of the
  embedded sources, so it is abstracted as an oracle record `Kernel`;
  the control flow of `simple_winkler_analysis` is embedded faithfully
  over that oracle and verified for every oracle behaviour, while
  concrete runs instantiate the oracle with explicit small matrices;
* Python exceptions are modelled with `Except`; a `numpy` NaN that can
  arise in the vertical-stress columns is modelled with `Option`.
-/

abbrev Vec := List ℚ
abbrev Mat := List (List ℚ)

/-- Matrix-vector product (`numpy` `K.dot(d)` restricted to the shapes used). -/
def matVec (K : Mat) (v : Vec) : Vec :=
  K.map (fun row => (List.zipWith (fun a b => a * b) row v).sum)

def vadd (a b : Vec) : Vec := List.zipWith (fun x y => x + y) a b

def vsub (a b : Vec) : Vec := List.zipWith (fun x y => x - y) a b

def vneg (a : Vec) : Vec := a.map (fun x => -x)

/-- The sub-vector `v[~supports]`: entries at unrestrained positions. -/
def freePart (v : Vec) (sup : List Bool) : Vec :=
  ((v.zip sup).filter (fun p => !p.2)).map (fun p => p.1)

/-- The `kind` argument of `kernel.build_stiffness_matrix`. -/
inductive StiffKind
  | initial
  | secant
  | tangent
deriving DecidableEq

/-- Oracle for the functions of `openpile.core.kernel` and for
`np.linalg.norm`, which are outside the embedded sources.  `solve`
takes the stiffness matrix, the right-hand side, the prescribed
displacements and the restraint mask and returns the displacement
increment and the reactions, or `none` for `np.linalg.LinAlgError`. -/
structure Kernel where
  solve : Mat → Vec → Vec → List Bool → Option (Vec × Vec)
  buildK : Vec → StiffKind → Mat
  norm : Vec → ℚ
  pileInternalForces : Vec → Vec

/-- The mutable state of the `while` loop of `simple_winkler_analysis`:
current stiffness matrix, residual, prescribed displacements,
accumulated displacements, and the reactions of the last successful
solve (`none` while the Python variable `Q` is still unassigned). -/
structure LoopState where
  K : Mat
  Rg : Vec
  U : Vec
  d : Vec
  Qprev : Option Vec
deriving DecidableEq

/-- The values computed by one pass of the loop body up to the residual. -/
structure StepOut where
  uinc : Vec
  Q : Vec
  dNew : Vec
  RgNew : Vec
  control : ℚ
  resFree : ℚ
deriving DecidableEq

/-- One pass of the loop body of `simple_winkler_analysis` up to and
including the new residual (analyze.py lines 426-447): solve the
system, external force `F_ext = F - Q` and its norm (`control`),
displacement update `d += u_inc`, secant stiffness at the new `d`,
internal force `F_int = -K_secant.dot(d)`, residual `Rg = F_ext + F_int`,
and the norm of the residual restricted to free degrees of freedom.
`none` models `np.linalg.LinAlgError` raised by the solve. -/
def stepCore (ker : Kernel) (F : Vec) (sup : List Bool) (s : LoopState) : Option StepOut :=
  match ker.solve s.K s.Rg s.U sup with
  | none => none
  | some (uinc, Q) =>
    let Fext := vsub F Q
    let control := ker.norm Fext
    let dNew := vadd s.d uinc
    let Ksec := ker.buildK dNew .secant
    let Fint := vneg (matVec Ksec dNew)
    let RgNew := vadd Fext Fint
    some ⟨uinc, Q, dNew, RgNew, control, ker.norm (freePart RgNew sup)⟩

/-- End-of-pass updates when the loop does not break (lines 459-467):
tangent stiffness at the new displacement, prescribed displacements
zeroed out, new residual carried over, reactions remembered. -/
def advance (ker : Kernel) (o : StepOut) (s : LoopState) : LoopState :=
  { K := ker.buildK o.dNew .tangent
    Rg := o.RgNew
    U := s.U.map (fun _ => 0)
    d := o.dNew
    Qprev := some o.Q }

/-- The residual test of line 450: `np.linalg.norm(Rg[~supports]) < 1e-4 * control`. -/
def convTest (o : StepOut) : Prop := o.resFree < 1 / 10000 * o.control

instance (o : StepOut) : Decidable (convTest o) := by
  unfold convTest
  infer_instance

/-- How the loop of `simple_winkler_analysis` terminated, with the value
of `iter_no` at termination where applicable. -/
inductive Outcome
  | converged (n : ℕ)
  | singular (n : ℕ)
  | exhausted
deriving DecidableEq

/-- The observable result of the loop: final displacement vector, the
reactions of the last successful solve, the termination mode, the
number of calls to `kernel.solve_equations`, the `(control, residual)`
norms of each completed pass, and whether the hard-coded
`iter_no == 100` printout fired. -/
structure LoopResult where
  d : Vec
  Q : Option Vec
  outcome : Outcome
  solves : ℕ
  trace : List (ℚ × ℚ)
  notConvPrinted : Bool
deriving DecidableEq

/-- The `while iter_no <= max_iter` loop of `simple_winkler_analysis`
(analyze.py lines 423-467).  `fuel` is the number of passes the loop
condition still admits (`max_iter + 1 - iter_no`); `iter` is `iter_no`.
Convergence is declared (lines 450-454) when the free-residual norm is
below `1e-4` times the `control` norm computed in the same pass and
`iter_no > 0`; a pass reaching line 456 with `iter_no == 100` prints the
not-converged diagnostic regardless of `max_iter`. -/
def winklerLoopAux (ker : Kernel) (F : Vec) (sup : List Bool) :
    ℕ → ℕ → LoopState → ℕ → List (ℚ × ℚ) → Bool → LoopResult
  | 0, _, s, solves, tr, pr => ⟨s.d, s.Qprev, .exhausted, solves, tr, pr⟩
  | fuel + 1, iter, s, solves, tr, pr =>
    match stepCore ker F sup s with
    | none => ⟨s.d, s.Qprev, .singular iter, solves + 1, tr, pr⟩
    | some o =>
      if convTest o ∧ 0 < iter then
        ⟨o.dNew, some o.Q, .converged iter, solves + 1, tr ++ [(o.control, o.resFree)], pr⟩
      else
        winklerLoopAux ker F sup fuel (iter + 1) (advance ker o s) (solves + 1)
          (tr ++ [(o.control, o.resFree)]) (pr || iter == 100)

/-- The initial loop state (lines 405-420): `d = 0`, initial-mode
stiffness, residual seeded with the external force, `Q` unassigned. -/
def initState (ker : Kernel) (F U : Vec) : LoopState :=
  ⟨ker.buildK (U.map (fun _ => 0)) .initial, F, U, U.map (fun _ => 0), none⟩

/-- The whole incremental loop started as in the source: `iter_no = 0`,
so with budget `max_iter` the loop condition admits `max_iter + 1` passes. -/
def winklerLoop (ker : Kernel) (F U : Vec) (sup : List Bool) (maxIter : ℕ) : LoopResult :=
  winklerLoopAux ker F sup (maxIter + 1) 0 (initState ker F U) 0 [] false

inductive PyErr
  | nameError
  | attributeError
  | valueError
  | typeError
  | userWarning
deriving DecidableEq

/-- The data of the `AnalyzeResult` built after the loop, plus the loop
diagnostics.  The mobilisation tables are further kernel-oracle
post-processing of the same final `d` and are not modelled beyond the
internal forces. -/
structure WinklerOut where
  d : Vec
  Q : Vec
  qint : Vec
  outcome : Outcome
  solves : ℕ
  trace : List (ℚ × ℚ)
  notConvPrinted : Bool
deriving DecidableEq

/-- `simple_winkler_analysis` (analyze.py lines 381-489).  With
`soil = None` the function evaluates `UserWarning(...)` without raising
it and falls off the end of the `if`, returning Python `None`; otherwise
it runs the incremental loop and builds the result tables from the final
displacement vector and the reactions `Q` of the last successful solve.
If `Q` was never assigned (the very first solve raised), the use of `Q`
at line 477 is a `NameError`. -/
def simpleWinklerAnalysis (ker : Kernel) (soil : Option Unit) (F U : Vec)
    (sup : List Bool) (maxIter : ℕ) : Except PyErr (Option WinklerOut) :=
  match soil with
  | none => .ok none
  | some _ =>
    let r := winklerLoop ker F U sup maxIter
    match r.Q with
    | none => .error .nameError
    | some Q =>
      .ok (some ⟨r.d, Q, ker.pileInternalForces r.d, r.outcome, r.solves, r.trace,
        r.notConvPrinted⟩)

/-- The loop state reached before pass `n` if no break were ever taken:
pure iteration of the full pass body (a failing solve truncates the
trajectory).  Used to state which pass the loop stops in. -/
def trajState (ker : Kernel) (F : Vec) (sup : List Bool) (s0 : LoopState) : ℕ → Option LoopState
  | 0 => some s0
  | n + 1 =>
    match trajState ker F sup s0 n with
    | none => none
    | some s =>
      match stepCore ker F sup s with
      | none => none
      | some o => some (advance ker o s)

/-- The step data computed in pass `n` of the untruncated trajectory
(`none` when the trajectory already died or the solve of pass `n` fails). -/
def trajInfo (ker : Kernel) (F : Vec) (sup : List Bool) (s0 : LoopState) (n : ℕ) :
    Option StepOut :=
  match trajState ker F sup s0 n with
  | none => none
  | some s => stepCore ker F sup s

/-- The loop started at `iter_no = base` stops in its `j`-th pass: either
the solve raises (singular break) or the residual test passes with
`iter_no = base + j > 0` (convergence break). -/
def stopsFrom (ker : Kernel) (F : Vec) (sup : List Bool) (s0 : LoopState) (base j : ℕ) : Prop :=
  (trajState ker F sup s0 j).isSome ∧
    (trajInfo ker F sup s0 j = none ∨
      ∃ o, trajInfo ker F sup s0 j = some o ∧ convTest o ∧ 1 ≤ base + j)

/-- Absolute value on ℚ written with an `if`, so that concrete runs
evaluate by rewriting; equal to `|x|` (see `qabs_eq_abs`). -/
def qabs (x : ℚ) : ℚ := if x < 0 then -x else x

/-- Concrete kernel oracle for the convergence-rule counterexample.
The reactions of the two solves differ, so the external-force norm
`control` differs between pass 0 (value 100) and pass 1 (value 10000).
Every vector whose norm is taken in this run has at most one nonzero
entry, so this 1-norm instantiation coincides with the Euclidean
`np.linalg.norm` on the run. -/
def c1Ker : Kernel where
  solve := fun K _ _ _ =>
    if K = [[1, 0], [0, 1]] then some ([1, 0], [0, -96]) else some ([1, 0], [0, -9996])
  buildK := fun u kind =>
    match kind with
    | .initial => [[1, 0], [0, 1]]
    | .secant => if u = [1, 0] then [[2, 0], [0, 0]] else [[1 / 4, 0], [0, 0]]
    | .tangent => [[3, 0], [0, 3]]
  norm := fun v => (v.map qabs).sum
  pileInternalForces := fun _ => []

/-- Concrete kernel oracle whose second solve raises `LinAlgError`. -/
def c3Ker : Kernel where
  solve := fun K _ _ _ => if K = [[1]] then some ([1], [0]) else none
  buildK := fun _ kind =>
    match kind with
    | .initial => [[1]]
    | .secant => [[1]]
    | .tangent => [[2]]
  norm := fun v => (v.map qabs).sum
  pileInternalForces := fun d => d

/-- Concrete kernel oracle under which the residual test never passes. -/
def c4Ker : Kernel where
  solve := fun _ _ _ _ => some ([0], [0])
  buildK := fun _ _ => [[0]]
  norm := fun v => (v.map qabs).sum
  pileInternalForces := fun d => d

/-- Insert into a strictly descending list, dropping duplicates. -/
def insertUD (a : ℚ) : List ℚ → List ℚ
  | [] => [a]
  | b :: t => if b < a then a :: b :: t else if a = b then b :: t else b :: insertUD a t

/-- `np.unique(x)[::-1]`: the strictly descending enumeration of the
values of a list (construct.py lines 667 and 685). -/
def uniqueSortDesc (l : List ℚ) : List ℚ := l.foldr insertUD []

/-- The `while new_spacing > coarseness` loop of construct.py lines
673-677: starting from `divider = 1`, increment until
`spacing / divider ≤ coarseness`; run with enough fuel to reach the
exit condition whenever the coarseness is positive. -/
def dividerLoop (spacing c : ℚ) : ℕ → ℕ → ℕ
  | 0, d => d
  | fuel + 1, d => if c < spacing / (d : ℚ) then dividerLoop spacing c fuel (d + 1) else d

/-- The number of equal subspans an anchor span is cut into. -/
def divider (spacing c : ℚ) : ℕ :=
  dividerLoop spacing c ((Int.ceil (spacing / c)).toNat + 1) 1

/-- The secondary points inserted between two consecutive anchors
(construct.py lines 678-681): `x_i - j * new_spacing` for
`j = 1 .. divider - 1`, with `new_spacing = spacing / divider`. -/
def intermediates (a b c : ℚ) : List ℚ :=
  (List.range (divider (a - b) c - 1)).map
    (fun j : ℕ => a - ((j : ℚ) + 1) * ((a - b) / (divider (a - b) c : ℚ)))

/-- Consecutive pairs of a list: the elements of the mesh seen as
(`x_top`, `x_bottom`) element rows (lines 700-708). -/
def adjacentPairs (l : List ℚ) : List (ℚ × ℚ) := l.zip l.tail

/-- The unrounded mesh x-coordinates of `Model._postinit.get_coordinates`
(lines 666-685): first anchor pass (`np.unique(x)[::-1]`), then the
secondary subdivision points of every anchor span, appended and passed
through `np.unique` once more. -/
def meshRaw (xs : List ℚ) (c : ℚ) : List ℚ :=
  uniqueSortDesc
    (uniqueSortDesc xs ++
      (adjacentPairs (uniqueSortDesc xs)).bind (fun p => intermediates p.1 p.2 c))

/-- numpy rounding to the nearest integer with ties to even, as used by
`.round(3)` scaled by 1000. -/
def roundHalfEven (q : ℚ) : ℤ :=
  if q - Int.floor q < 1 / 2 then Int.floor q
  else if (1 : ℚ) / 2 < q - Int.floor q then Int.floor q + 1
  else if Int.floor q % 2 = 0 then Int.floor q else Int.floor q + 1

/-- Rounding of a coordinate to 3 decimals, as applied to the node and
element tables (construct.py lines 691-708, `.round(3)`). -/
def round3 (q : ℚ) : ℚ := (roundHalfEven (q * 1000) : ℚ) / 1000

/-- The node elevations of the generated mesh (the `x [m]` column of the
rounded node table). -/
def meshNodes (xs : List ℚ) (c : ℚ) : List ℚ := (meshRaw xs c).map round3

/-- The mesh-length invariant exactly as the claim states it, on the
generated (rounded) mesh: every element length is at most the
coarseness, except possibly an element whose two endpoints are both
anchor elevations. -/
def meshInvariantClaim (xs : List ℚ) (c : ℚ) : Prop :=
  ∀ p ∈ adjacentPairs (meshNodes xs c), p.1 - p.2 ≤ c ∨ (p.1 ∈ xs ∧ p.2 ∈ xs)

/-- The anchor spans laid out block by block: each anchor followed by
its subdivision points; reference shape for `meshRaw`. -/
def blockChain (c : ℚ) : List ℚ → List ℚ
  | [] => []
  | [a] => [a]
  | a :: b :: rest => a :: (intermediates a b c ++ blockChain c (b :: rest))

/-- The boundary-condition state of a `Model`: node elevations
(`nodes_coordinates["x [m]"]`), the point-load table `global_forces`
(`Px`, `Py`, `Mz` per node), the prescribed-displacement table
`global_disp` (`Tx`, `Ty`, `Rz`) and the restraint mask
`global_restrained`. -/
structure BCState where
  nodes : List ℚ
  forces : List (ℚ × ℚ × ℚ)
  disp : List (ℚ × ℚ × ℚ)
  restrained : List (Bool × Bool × Bool)
deriving DecidableEq

/-- The printed diagnostics of the three setters. -/
inductive Diag
  | applied
  | outsideMesh
  | notMeshed
deriving DecidableEq

/-- `np.isclose(node, elevation, atol=0.001)` with numpy's default
relative tolerance `rtol = 1e-5`: `|a - b| <= atol + rtol * |b|` with
`b` the requested elevation. -/
def isclose (a b : ℚ) : Bool := decide (qabs (a - b) ≤ 1 / 1000 + 1 / 100000 * qabs b)

/-- The indices of the nodes matching the requested elevation
(`np.where(check == True)[0]`). -/
def matchingNodes (nodes : List ℚ) (e : ℚ) : List ℕ :=
  (List.range nodes.length).filter (fun i => isclose (nodes.getD i 0) e)

/-- The diagnostic of the rejection branch (construct.py lines 959-970,
1023-1034, 1080-1091): outside the mesh when the elevation is above the
first node or below the last node, otherwise not meshed. -/
def offMeshDiag (nodes : List ℚ) (e : ℚ) : Diag :=
  if nodes.headD 0 < e ∨ e < nodes.getLastD 0 then .outsideMesh else .notMeshed

/-- `Model.set_pointload` (construct.py lines 917-973): with exactly one
matching node the non-`None` components overwrite that node's row of
`global_forces`; with no match nothing changes and a diagnostic is
printed; with several matches `int(...)` on the index array raises
`TypeError` (re-raised by the handler). -/
def setPointload (m : BCState) (e : ℚ) (Py Px Mz : Option ℚ) :
    Except PyErr (BCState × Diag) :=
  match matchingNodes m.nodes e with
  | [i] =>
    let f0 := m.forces.getD i (0, 0, 0)
    .ok ({ m with forces := m.forces.set i (Px.getD f0.1, Py.getD f0.2.1, Mz.getD f0.2.2) },
      .applied)
  | [] => .ok (m, offMeshDiag m.nodes e)
  | _ => .error .typeError

/-- `Model.set_pointdisplacement` (construct.py lines 975-1037): each
supplied component is recorded in `global_disp` and the matching entry
of `global_restrained` is set to `value > 0.0`. -/
def setPointdisplacement (m : BCState) (e : ℚ) (Ty Tx Rz : Option ℚ) :
    Except PyErr (BCState × Diag) :=
  match matchingNodes m.nodes e with
  | [i] =>
    let d0 := m.disp.getD i (0, 0, 0)
    let r0 := m.restrained.getD i (false, false, false)
    .ok ({ m with
      disp := m.disp.set i (Tx.getD d0.1, Ty.getD d0.2.1, Rz.getD d0.2.2),
      restrained := m.restrained.set i
        ((Tx.map (fun v => decide (0 < v))).getD r0.1,
         (Ty.map (fun v => decide (0 < v))).getD r0.2.1,
         (Rz.map (fun v => decide (0 < v))).getD r0.2.2) },
      .applied)
  | [] => .ok (m, offMeshDiag m.nodes e)
  | _ => .error .typeError

/-- `Model.set_support` (construct.py lines 1039-1094): the three
restraint flags of the matching node are overwritten unconditionally. -/
def setSupport (m : BCState) (e : ℚ) (Ty Tx Rz : Bool) :
    Except PyErr (BCState × Diag) :=
  match matchingNodes m.nodes e with
  | [i] => .ok ({ m with restrained := m.restrained.set i (Tx, Ty, Rz) }, .applied)
  | [] => .ok (m, offMeshDiag m.nodes e)
  | _ => .error .typeError

/-- The concrete model of the placement-tolerance counterexample. -/
def c7Model : BCState :=
  ⟨[100, 0], [(0, 0, 0), (0, 0, 0)], [(0, 0, 0), (0, 0, 0)],
    [(false, false, false), (false, false, false)]⟩

def c7W : BCState := ⟨[5], [(1, 2, 3)], [(0, 0, 0)], [(true, false, true)]⟩

def c8W : BCState :=
  ⟨[0, -5], [(0, 0, 0), (0, 0, 0)], [(0, 0, 0), (0, 0, 0)],
    [(false, false, false), (false, false, false)]⟩

/-- A soil layer as consumed by the vertical-stress computation. -/
structure LayerEmb where
  top : ℚ
  bottom : ℚ
  weight : ℚ
deriving DecidableEq

/-- Insertion into a list sorted ascending by first component (stable). -/
def insertAscBy (r : ℚ × ℚ) : List (ℚ × ℚ) → List (ℚ × ℚ)
  | [] => [r]
  | s :: t => if r.1 ≤ s.1 then r :: s :: t else s :: insertAscBy r t

/-- The `(Top soil layer, Unit Weight)` rows of `get_soil_profile`
(construct.py lines 715-737), as consumed by the asof-merge of lines
832-840: sorted ascending by layer top elevation. -/
def soilProfileRowsAsc (layers : List LayerEmb) : List (ℚ × ℚ) :=
  (layers.map (fun l => (l.top, l.weight))).foldr insertAscBy []

/-- `pd.merge_asof(..., direction="forward")` on one key: the value of
the first row (in ascending key order) whose key is at or above `x`;
`none` is the NaN produced when no row matches. -/
def matchForward (rows : List (ℚ × ℚ)) (x : ℚ) : Option ℚ :=
  match rows.find? (fun r => decide (x ≤ r.1)) with
  | none => none
  | some r => some r.2

/-- `numpy` cumulative sum with NaN (= `none`) propagation. -/
def optCumsumAux (acc : Option ℚ) : List (Option ℚ) → List (Option ℚ)
  | [] => []
  | x :: t =>
    let acc' := match acc, x with
      | some a, some b => some (a + b)
      | _, _ => none
    acc' :: optCumsumAux acc' t

def optCumsum (l : List (Option ℚ)) : List (Option ℚ) := optCumsumAux (some 0) l

/-- `np.insert(arr, p, 0.0)` at a single position. -/
def npInsertZeroAt (l : List (Option ℚ)) (p : ℕ) : List (Option ℚ) :=
  l.take p ++ some 0 :: l.drop p

/-- The vertical-stress columns of `Model._postinit` (lines 848-861). -/
structure SoilPropsOut where
  weights : List (Option ℚ)
  sigmaBottom : List (Option ℚ)
  sigmaTop : Except PyErr (List (Option ℚ))

/-- Soil property columns of `Model._postinit` (construct.py lines
832-861): per-element layer unit weight via forward asof-merge on the
layer tops, buoyant reduction by 10 where the element top is at or
below the water elevation, `s = thickness * weight`, `σ_v bottom` as the
running cumulative sum over all elements from the top of the mesh, and
`σ_v top` as `np.insert(s.cumsum()[:-1], positions_of_ground, 0.0)` -
an assignment that pandas rejects (`ValueError`) unless exactly one
element top sits at the ground elevation. -/
def soilProps (elems : List (ℚ × ℚ)) (layers : List LayerEmb) (ground water : ℚ) :
    SoilPropsOut :=
  let rows := soilProfileRowsAsc layers
  let wAdj := elems.map (fun e =>
    if e.1 ≤ water then (matchForward rows e.1).map (fun v => v - 10)
    else matchForward rows e.1)
  let s := (elems.zip wAdj).map (fun p => p.2.map (fun v => (p.1.1 - p.1.2) * v))
  let cums := optCumsum s
  let pos := (List.range elems.length).filter
    (fun i => decide ((elems.getD i (0, 0)).1 = ground))
  ⟨wAdj, cums,
    if pos.length = 1 then .ok (npInsertZeroAt cums.dropLast (pos.headD 0))
    else .error .valueError⟩

/-- The vertical effective stress at element bottoms exactly as the
claim words it: the cumulative sum of element thickness × unit weight
over the mesh elements from the ground surface down (elements above the
ground surface contribute nothing), with the buoyant reduction applied
as the code applies it. -/
def sigmaBottomSpec (elems : List (ℚ × ℚ)) (layers : List LayerEmb) (ground water : ℚ) :
    List (Option ℚ) :=
  let rows := soilProfileRowsAsc layers
  optCumsum (elems.map (fun e =>
    if e.1 ≤ ground then
      (if e.1 ≤ water then (matchForward rows e.1).map (fun v => v - 10)
       else matchForward rows e.1).map (fun v => (e.1 - e.2) * v)
    else some 0))

/-- The per-element contribution thickness × (matched unit weight, less
10 if the element top is at or below the water elevation). -/
def contribList (elems : List (ℚ × ℚ)) (layers : List LayerEmb) (water : ℚ) : List ℚ :=
  elems.map (fun e => (e.1 - e.2) *
    ((matchForward (soilProfileRowsAsc layers) e.1).getD 0 - if e.1 ≤ water then 10 else 0))

/-- Running partial sums starting from `acc`. -/
def partialSumsFrom (acc : ℚ) : List ℚ → List ℚ
  | [] => []
  | x :: t => (acc + x) :: partialSumsFrom (acc + x) t

structure PileEmb where
  topElevation : ℚ
  lengths : List ℚ
  diameters : List ℚ
  wallThicknesses : List ℚ
deriving DecidableEq

/-- `Pile.bottom_elevation` (construct.py lines 231-236). -/
def PileEmb.bottomElevation (p : PileEmb) : ℚ := p.topElevation - p.lengths.sum

structure SoilProfileEmb where
  topElevation : ℚ
  waterElevation : ℚ
  layers : List LayerEmb
deriving DecidableEq

/-- `SoilProfile.bottom_elevation` (construct.py lines 508-513). -/
def SoilProfileEmb.bottomElevation (sp : SoilProfileEmb) : ℚ :=
  sp.topElevation - (sp.layers.map (fun l => qabs (l.top - l.bottom))).sum

/-- The root validator `Model.soil_and_pile_bottom_elevation_match`
(construct.py lines 619-623).  `values["soil"].bottom_elevation` is
evaluated unconditionally, so when the model is built without a soil
profile the validator dereferences `None` and construction raises an
`AttributeError`; with a soil profile it raises `UserWarning` when the
pile ends deeper than the soil profile. -/
def soilAndPileBottomElevationMatch (pile : PileEmb) (soil : Option SoilProfileEmb) :
    Except PyErr Unit :=
  match soil with
  | none => .error .attributeError
  | some sp =>
    if pile.bottomElevation < sp.bottomElevation then .error .userWarning else .ok ()

/-- The `Elevation [m]` column of `Pile.data` (construct.py lines
119-128): top and bottom elevation of each section, with interior
boundaries listed twice. -/
def pileElevFrom (top : ℚ) : List ℚ → List ℚ
  | [] => []
  | len :: rest => top :: (top - len) :: pileElevFrom (top - len) rest

/-- The primary anchor elevations of `get_coordinates` (construct.py
lines 649-664): pile section boundaries, soil layer boundaries clipped
at the pile bottom elevation when any reaches deeper, and user
elevations `x2mesh`. -/
def primaryAnchors (pile : PileEmb) (soil : Option SoilProfileEmb) (x2mesh : List ℚ) :
    List ℚ :=
  let px := pileElevFrom pile.topElevation pile.lengths
  let sx := match soil with
    | none => []
    | some sp =>
      let se := sp.layers.map (fun l => l.top) ++ sp.layers.map (fun l => l.bottom)
      if se.any (fun x => decide (x < pile.bottomElevation)) then
        (pile.bottomElevation :: se).filter (fun x => decide (pile.bottomElevation ≤ x))
      else se
  px ++ sx ++ x2mesh

/-- The parts of a constructed `Model` that the verified claims consume:
the rounded node elevations, the element rows, the vertical-stress
columns, and the zero-initialised boundary-condition tables.  The
per-element structural property merge of lines 817-829 is further
asof-merge bookkeeping of the same mesh and is not needed by any claim. -/
structure ModelEmb where
  nodes : List ℚ
  elements : List (ℚ × ℚ)
  soilP : SoilPropsOut
  bc : BCState

/-- `Model.create` (construct.py lines 1100-1162): pydantic field
validation, including the root validator, followed by `_postinit`
(mesh coordinates, soil property columns, zero boundary conditions). -/
def modelCreate (pile : PileEmb) (soil : Option SoilProfileEmb) (x2mesh : List ℚ)
    (coarseness : ℚ) : Except PyErr ModelEmb :=
  match soilAndPileBottomElevationMatch pile soil with
  | .error err => .error err
  | .ok _ =>
    match soil with
    | none => .error .attributeError
    | some sp =>
      let nodes := meshNodes (primaryAnchors pile (some sp) x2mesh) coarseness
      let elements := adjacentPairs nodes
      let sigma := soilProps elements sp.layers sp.topElevation sp.waterElevation
      match sigma.sigmaTop with
      | .error err => .error err
      | .ok _ =>
        .ok ⟨nodes, elements, sigma,
          ⟨nodes, nodes.map (fun _ => (0, 0, 0)), nodes.map (fun _ => (0, 0, 0)),
            nodes.map (fun _ => (false, false, false))⟩⟩

theorem trajState_succ_shift (ker : Kernel) (F : Vec) (sup : List Bool) (s0 : LoopState)
    (o : StepOut) (h : stepCore ker F sup s0 = some o) :
    ∀ n, trajState ker F sup s0 (n + 1) = trajState ker F sup (advance ker o s0) n := by
  intro n
  induction n with
  | zero => simp [trajState, h]
  | succ m ih =>
    rw [trajState, ih]
    rfl

theorem trajInfo_succ_shift (ker : Kernel) (F : Vec) (sup : List Bool) (s0 : LoopState)
    (o : StepOut) (h : stepCore ker F sup s0 = some o) (n : ℕ) :
    trajInfo ker F sup s0 (n + 1) = trajInfo ker F sup (advance ker o s0) n := by
  unfold trajInfo
  rw [trajState_succ_shift ker F sup s0 o h]

theorem stopsFrom_succ_shift (ker : Kernel) (F : Vec) (sup : List Bool) (s0 : LoopState)
    (o : StepOut) (h : stepCore ker F sup s0 = some o) (base j : ℕ) :
    stopsFrom ker F sup s0 base (j + 1) ↔ stopsFrom ker F sup (advance ker o s0) (base + 1) j := by
  unfold stopsFrom
  rw [trajState_succ_shift ker F sup s0 o h, trajInfo_succ_shift ker F sup s0 o h]
  have harith : base + (j + 1) = base + 1 + j := by omega
  rw [harith]

theorem trajInfo_zero (ker : Kernel) (F : Vec) (sup : List Bool) (s0 : LoopState) :
    trajInfo ker F sup s0 0 = stepCore ker F sup s0 := by
  simp [trajInfo, trajState]

theorem loopAux_converged_iff (ker : Kernel) (F : Vec) (sup : List Bool) :
    ∀ (fuel base : ℕ) (s : LoopState) (solves : ℕ) (tr : List (ℚ × ℚ)) (pr : Bool) (n : ℕ),
      (winklerLoopAux ker F sup fuel base s solves tr pr).outcome = .converged n ↔
        ∃ k, n = base + k ∧ k < fuel ∧ 1 ≤ n ∧
          (∃ o, trajInfo ker F sup s k = some o ∧ convTest o) ∧
          ∀ j, j < k → ¬ stopsFrom ker F sup s base j := by
  intro fuel
  induction fuel with
  | zero =>
    intro base s solves tr pr n
    simp [winklerLoopAux]
  | succ fuel ih =>
    intro base s solves tr pr n
    cases h : stepCore ker F sup s with
    | none =>
      simp only [winklerLoopAux, h]
      constructor
      · intro hc
        exact absurd hc (by simp)
      · rintro ⟨k, hn, hk, h1, ⟨o, hio, hco⟩, hall⟩
        cases k with
        | zero =>
          rw [trajInfo_zero, h] at hio
          exact absurd hio (by simp)
        | succ j =>
          refine absurd (hall 0 (by omega)) ?_
          intro hcon
          apply hcon
          constructor
          · simp [trajState]
          · left
            rw [trajInfo_zero, h]
    | some o =>
      by_cases hc : convTest o ∧ 0 < base
      · simp only [winklerLoopAux, h, if_pos hc]
        constructor
        · intro he
          have hbn : base = n := by
            simpa using he
          refine ⟨0, by omega, by omega, by omega, ⟨o, ?_, hc.1⟩, by omega⟩
          rw [trajInfo_zero, h]
        · rintro ⟨k, hn, hk, h1, ⟨o', hio, hco⟩, hall⟩
          cases k with
          | zero =>
            simp only [Outcome.converged.injEq]
            omega
          | succ j =>
            refine absurd (hall 0 (by omega)) ?_
            intro hcon
            apply hcon
            refine ⟨by simp [trajState], Or.inr ⟨o, ?_, hc.1, by omega⟩⟩
            rw [trajInfo_zero, h]
      · simp only [winklerLoopAux, h, if_neg hc]
        rw [ih (base + 1) (advance ker o s) (solves + 1) (tr ++ [(o.control, o.resFree)])
          (pr || base == 100) n]
        constructor
        · rintro ⟨k', hn, hk, h1, ⟨o', hio, hco⟩, hall⟩
          refine ⟨k' + 1, by omega, by omega, h1, ⟨o', ?_, hco⟩, ?_⟩
          · rw [trajInfo_succ_shift ker F sup s o h]
            exact hio
          · intro j hj
            cases j with
            | zero =>
              intro hcon
              rcases hcon with ⟨_, hcon2⟩
              rcases hcon2 with hnone | ⟨o'', hio'', hco'', hb⟩
              · rw [trajInfo_zero, h] at hnone
                exact absurd hnone (by simp)
              · rw [trajInfo_zero, h] at hio''
                have ho2 : o = o'' := by
                  simpa using hio''
                subst ho2
                exact hc ⟨hco'', by omega⟩
            | succ j' =>
              rw [stopsFrom_succ_shift ker F sup s o h]
              exact hall j' (by omega)
        · rintro ⟨k, hn, hk, h1, ⟨o', hio, hco⟩, hall⟩
          cases k with
          | zero =>
            rw [trajInfo_zero, h] at hio
            have ho2 : o = o' := by
              simpa using hio
            subst ho2
            exact absurd ⟨hco, by omega⟩ hc
          | succ k' =>
            refine ⟨k', by omega, by omega, h1, ⟨o', ?_, hco⟩, ?_⟩
            · rw [← trajInfo_succ_shift ker F sup s o h]
              exact hio
            · intro j' hj'
              rw [← stopsFrom_succ_shift ker F sup s o h]
              exact hall (j' + 1) (by omega)

theorem loopAux_singular_iff (ker : Kernel) (F : Vec) (sup : List Bool) :
    ∀ (fuel base : ℕ) (s : LoopState) (solves : ℕ) (tr : List (ℚ × ℚ)) (pr : Bool) (n : ℕ),
      (winklerLoopAux ker F sup fuel base s solves tr pr).outcome = .singular n ↔
        ∃ k, n = base + k ∧ k < fuel ∧ (trajState ker F sup s k).isSome ∧
          trajInfo ker F sup s k = none ∧
          ∀ j, j < k → ¬ stopsFrom ker F sup s base j := by
  intro fuel
  induction fuel with
  | zero =>
    intro base s solves tr pr n
    simp [winklerLoopAux]
  | succ fuel ih =>
    intro base s solves tr pr n
    cases h : stepCore ker F sup s with
    | none =>
      simp only [winklerLoopAux, h]
      constructor
      · intro he
        have hbn : base = n := by
          simpa using he
        refine ⟨0, by omega, by omega, by simp [trajState], ?_, by omega⟩
        rw [trajInfo_zero, h]
      · rintro ⟨k, hn, hk, hsome, hio, hall⟩
        cases k with
        | zero =>
          simp only [Outcome.singular.injEq]
          omega
        | succ j =>
          refine absurd (hall 0 (by omega)) ?_
          intro hcon
          apply hcon
          refine ⟨by simp [trajState], Or.inl ?_⟩
          rw [trajInfo_zero, h]
    | some o =>
      by_cases hc : convTest o ∧ 0 < base
      · simp only [winklerLoopAux, h, if_pos hc]
        constructor
        · intro he
          exact absurd he (by simp)
        · rintro ⟨k, hn, hk, hsome, hio, hall⟩
          cases k with
          | zero =>
            rw [trajInfo_zero, h] at hio
            exact absurd hio (by simp)
          | succ j =>
            refine absurd (hall 0 (by omega)) ?_
            intro hcon
            apply hcon
            refine ⟨by simp [trajState], Or.inr ⟨o, ?_, hc.1, by omega⟩⟩
            rw [trajInfo_zero, h]
      · simp only [winklerLoopAux, h, if_neg hc]
        rw [ih (base + 1) (advance ker o s) (solves + 1) (tr ++ [(o.control, o.resFree)])
          (pr || base == 100) n]
        constructor
        · rintro ⟨k', hn, hk, hsome, hio, hall⟩
          refine ⟨k' + 1, by omega, by omega, ?_, ?_, ?_⟩
          · rw [trajState_succ_shift ker F sup s o h]
            exact hsome
          · rw [trajInfo_succ_shift ker F sup s o h]
            exact hio
          · intro j hj
            cases j with
            | zero =>
              intro hcon
              rcases hcon with ⟨_, hcon2⟩
              rcases hcon2 with hnone | ⟨o'', hio'', hco'', hb⟩
              · rw [trajInfo_zero, h] at hnone
                exact absurd hnone (by simp)
              · rw [trajInfo_zero, h] at hio''
                have ho2 : o = o'' := by
                  simpa using hio''
                subst ho2
                exact hc ⟨hco'', by omega⟩
            | succ j' =>
              rw [stopsFrom_succ_shift ker F sup s o h]
              exact hall j' (by omega)
        · rintro ⟨k, hn, hk, hsome, hio, hall⟩
          cases k with
          | zero =>
            rw [trajInfo_zero, h] at hio
            exact absurd hio (by simp)
          | succ k' =>
            refine ⟨k', by omega, by omega, ?_, ?_, ?_⟩
            · rw [← trajState_succ_shift ker F sup s o h]
              exact hsome
            · rw [← trajInfo_succ_shift ker F sup s o h]
              exact hio
            · intro j' hj'
              rw [← stopsFrom_succ_shift ker F sup s o h]
              exact hall (j' + 1) (by omega)

theorem loopAux_singular_result (ker : Kernel) (F : Vec) (sup : List Bool) :
    ∀ (fuel base : ℕ) (s : LoopState) (solves : ℕ) (tr : List (ℚ × ℚ)) (pr : Bool) (n : ℕ),
      (winklerLoopAux ker F sup fuel base s solves tr pr).outcome = .singular n →
        ∃ k s', n = base + k ∧ trajState ker F sup s k = some s' ∧
          (winklerLoopAux ker F sup fuel base s solves tr pr).d = s'.d ∧
          (winklerLoopAux ker F sup fuel base s solves tr pr).Q = s'.Qprev ∧
          (winklerLoopAux ker F sup fuel base s solves tr pr).solves = solves + k + 1 := by
  intro fuel
  induction fuel with
  | zero =>
    intro base s solves tr pr n he
    exact absurd he (by simp [winklerLoopAux])
  | succ fuel ih =>
    intro base s solves tr pr n
    cases h : stepCore ker F sup s with
    | none =>
      simp only [winklerLoopAux, h]
      intro he
      have hbn : base = n := by
        simpa using he
      exact ⟨0, s, by omega, by simp [trajState], rfl, rfl, by omega⟩
    | some o =>
      by_cases hc : convTest o ∧ 0 < base
      · simp only [winklerLoopAux, h, if_pos hc]
        intro he
        exact absurd he (by simp)
      · simp only [winklerLoopAux, h, if_neg hc]
        intro he
        rcases ih (base + 1) (advance ker o s) (solves + 1) (tr ++ [(o.control, o.resFree)])
          (pr || base == 100) n he with ⟨k', s', hn, hts, hd, hq, hs⟩
        refine ⟨k' + 1, s', by omega, ?_, hd, hq, by omega⟩
        rw [trajState_succ_shift ker F sup s o h]
        exact hts

theorem loopAux_solves_le (ker : Kernel) (F : Vec) (sup : List Bool) :
    ∀ (fuel base : ℕ) (s : LoopState) (solves : ℕ) (tr : List (ℚ × ℚ)) (pr : Bool),
      (winklerLoopAux ker F sup fuel base s solves tr pr).solves ≤ solves + fuel := by
  intro fuel
  induction fuel with
  | zero =>
    intro base s solves tr pr
    simp [winklerLoopAux]
  | succ fuel ih =>
    intro base s solves tr pr
    cases h : stepCore ker F sup s with
    | none =>
      simp only [winklerLoopAux, h]
      omega
    | some o =>
      by_cases hc : convTest o ∧ 0 < base
      · simp only [winklerLoopAux, h, if_pos hc]
        omega
      · simp only [winklerLoopAux, h, if_neg hc]
        have := ih (base + 1) (advance ker o s) (solves + 1) (tr ++ [(o.control, o.resFree)])
          (pr || base == 100)
        omega

theorem loopAux_exhausted_solves (ker : Kernel) (F : Vec) (sup : List Bool) :
    ∀ (fuel base : ℕ) (s : LoopState) (solves : ℕ) (tr : List (ℚ × ℚ)) (pr : Bool),
      (winklerLoopAux ker F sup fuel base s solves tr pr).outcome = .exhausted →
      (winklerLoopAux ker F sup fuel base s solves tr pr).solves = solves + fuel := by
  intro fuel
  induction fuel with
  | zero =>
    intro base s solves tr pr _
    simp [winklerLoopAux]
  | succ fuel ih =>
    intro base s solves tr pr
    cases h : stepCore ker F sup s with
    | none =>
      simp only [winklerLoopAux, h]
      intro he
      exact absurd he (by simp)
    | some o =>
      by_cases hc : convTest o ∧ 0 < base
      · simp only [winklerLoopAux, h, if_pos hc]
        intro he
        exact absurd he (by simp)
      · simp only [winklerLoopAux, h, if_neg hc]
        intro he
        have := ih (base + 1) (advance ker o s) (solves + 1) (tr ++ [(o.control, o.resFree)])
          (pr || base == 100) he
        omega

theorem loopAux_exhausted_d (ker : Kernel) (F : Vec) (sup : List Bool) :
    ∀ (fuel base : ℕ) (s : LoopState) (solves : ℕ) (tr : List (ℚ × ℚ)) (pr : Bool),
      (winklerLoopAux ker F sup fuel base s solves tr pr).outcome = .exhausted →
        ∃ s', trajState ker F sup s fuel = some s' ∧
          (winklerLoopAux ker F sup fuel base s solves tr pr).d = s'.d ∧
          (winklerLoopAux ker F sup fuel base s solves tr pr).Q = s'.Qprev := by
  intro fuel
  induction fuel with
  | zero =>
    intro base s solves tr pr _
    exact ⟨s, by simp [trajState], rfl, rfl⟩
  | succ fuel ih =>
    intro base s solves tr pr
    cases h : stepCore ker F sup s with
    | none =>
      simp only [winklerLoopAux, h]
      intro he
      exact absurd he (by simp)
    | some o =>
      by_cases hc : convTest o ∧ 0 < base
      · simp only [winklerLoopAux, h, if_pos hc]
        intro he
        exact absurd he (by simp)
      · simp only [winklerLoopAux, h, if_neg hc]
        intro he
        rcases ih (base + 1) (advance ker o s) (solves + 1) (tr ++ [(o.control, o.resFree)])
          (pr || base == 100) he with ⟨s', hts, hd, hq⟩
        refine ⟨s', ?_, hd, hq⟩
        rw [trajState_succ_shift ker F sup s o h]
        exact hts

theorem trajState_Qprev_isSome (ker : Kernel) (F : Vec) (sup : List Bool) (s0 : LoopState)
    (k : ℕ) (s' : LoopState) (hk : 1 ≤ k) (h : trajState ker F sup s0 k = some s') :
    s'.Qprev.isSome := by
  cases k with
  | zero => omega
  | succ j =>
    rw [trajState] at h
    cases h1 : trajState ker F sup s0 j with
    | none =>
      rw [h1] at h
      exact absurd h (by simp)
    | some s1 =>
      rw [h1] at h
      cases h2 : stepCore ker F sup s1 with
      | none =>
        simp only [h2] at h
        exact absurd h (by simp)
      | some o =>
        simp only [h2, Option.some.injEq] at h
        rw [← h]
        simp [advance]

theorem loopAux_printed_mono (ker : Kernel) (F : Vec) (sup : List Bool) :
    ∀ (fuel base : ℕ) (s : LoopState) (solves : ℕ) (tr : List (ℚ × ℚ)),
      (winklerLoopAux ker F sup fuel base s solves tr true).notConvPrinted = true := by
  intro fuel
  induction fuel with
  | zero =>
    intro base s solves tr
    simp [winklerLoopAux]
  | succ fuel ih =>
    intro base s solves tr
    cases h : stepCore ker F sup s with
    | none => simp [winklerLoopAux, h]
    | some o =>
      by_cases hc : convTest o ∧ 0 < base
      · simp [winklerLoopAux, h, if_pos hc]
      · simp only [winklerLoopAux, h, if_neg hc, Bool.true_or]
        exact ih (base + 1) (advance ker o s) (solves + 1) (tr ++ [(o.control, o.resFree)])

theorem loopAux_exhausted_printed (ker : Kernel) (F : Vec) (sup : List Bool) :
    ∀ (fuel base : ℕ) (s : LoopState) (solves : ℕ) (tr : List (ℚ × ℚ)) (pr : Bool),
      base ≤ 100 → 100 < base + fuel →
      (winklerLoopAux ker F sup fuel base s solves tr pr).outcome = .exhausted →
      (winklerLoopAux ker F sup fuel base s solves tr pr).notConvPrinted = true := by
  intro fuel
  induction fuel with
  | zero =>
    intro base s solves tr pr hb hf
    omega
  | succ fuel ih =>
    intro base s solves tr pr hb hf
    cases h : stepCore ker F sup s with
    | none =>
      simp only [winklerLoopAux, h]
      intro he
      exact absurd he (by simp)
    | some o =>
      by_cases hc : convTest o ∧ 0 < base
      · simp only [winklerLoopAux, h, if_pos hc]
        intro he
        exact absurd he (by simp)
      · simp only [winklerLoopAux, h, if_neg hc]
        intro he
        by_cases hb100 : base = 100
        · have hpr : (pr || (base == 100)) = true := by
            simp [hb100]
          rw [hpr]
          exact loopAux_printed_mono ker F sup fuel (base + 1) (advance ker o s) (solves + 1)
            (tr ++ [(o.control, o.resFree)])
        · exact ih (base + 1) (advance ker o s) (solves + 1) (tr ++ [(o.control, o.resFree)])
            (pr || (base == 100)) (by omega) (by omega) he

theorem loopAux_no_stop_exhausted (ker : Kernel) (F : Vec) (sup : List Bool)
    (h : ∀ s : LoopState, ∃ o, stepCore ker F sup s = some o ∧ ¬ convTest o) :
    ∀ (fuel base : ℕ) (s : LoopState) (solves : ℕ) (tr : List (ℚ × ℚ)) (pr : Bool),
      (winklerLoopAux ker F sup fuel base s solves tr pr).outcome = .exhausted := by
  intro fuel
  induction fuel with
  | zero =>
    intro base s solves tr pr
    simp [winklerLoopAux]
  | succ fuel ih =>
    intro base s solves tr pr
    rcases h s with ⟨o, ho, hnc⟩
    have hc : ¬ (convTest o ∧ 0 < base) := fun hx => hnc hx.1
    simp only [winklerLoopAux, ho, if_neg hc]
    exact ih (base + 1) (advance ker o s) (solves + 1) (tr ++ [(o.control, o.resFree)])
      (pr || base == 100)

/-- C1 (amended): in `simple_winkler_analysis`, convergence is declared at
iteration `n` exactly when the norm of the residual restricted to free
degrees of freedom is below `1e-4` times the norm of the external force
`F - Q` recomputed in that same iteration, at least one iteration has
been performed (`n ≥ 1`; the identical test passing at iteration 0 is
ignored), and no earlier pass already stopped the loop (by singularity,
or by the test passing at an iteration at least 1). -/
theorem c1_convergence_current_control (ker : Kernel) (F U : Vec) (sup : List Bool)
    (maxIter n : ℕ) :
    (winklerLoop ker F U sup maxIter).outcome = .converged n ↔
      (n ≤ maxIter ∧ 1 ≤ n ∧
        (∃ o, trajInfo ker F sup (initState ker F U) n = some o ∧
          o.resFree < 1 / 10000 * o.control) ∧
        ∀ j, j < n → ¬ stopsFrom ker F sup (initState ker F U) 0 j) := by
  rw [winklerLoop, loopAux_converged_iff]
  constructor
  · rintro ⟨k, hn, hk, h1, ⟨o, hio, hco⟩, hall⟩
    have hkn : k = n := by omega
    subst hkn
    exact ⟨by omega, h1, ⟨o, hio, hco⟩, hall⟩
  · rintro ⟨hn, h1, ⟨o, hio, hco⟩, hall⟩
    exact ⟨n, by omega, by omega, h1, ⟨o, hio, hco⟩, hall⟩

set_option maxRecDepth 8000 in
/-- C1 counterexample: a run in which the reactions, and with them the
external-force norm `control`, change between pass 0 (`control = 100`)
and pass 1 (`control = 10000`).  The loop declares convergence at
iteration 1 because `1/2 < 1e-4 * 10000`, although the residual is not
below `1e-4` times the external-force norm of the first pass
(`1/2 ≥ 1e-4 * 100`), refuting the claim that the threshold is fixed at
the first iteration's external-force norm. -/
theorem c1_counterexample :
    (winklerLoop c1Ker [0, 4] [0, 0] [false, true] 100).outcome = .converged 1 ∧
    (winklerLoop c1Ker [0, 4] [0, 0] [false, true] 100).trace =
      [(100, 2), (10000, 1 / 2)] ∧
    ¬ ((1 : ℚ) / 2 < 1 / 10000 * 100) := by
  norm_num [winklerLoop, winklerLoopAux, stepCore, advance, initState, c1Ker, convTest,
    matVec, vadd, vsub, vneg, freePart, qabs]

/-- C3 (amended): when the solve of iteration `n` raises `LinAlgError`,
the loop aborts at once (the failing call is the last one: `n + 1` solve
calls in total, no retry), but the partial state accumulated so far is
not discarded: for `n ≥ 1` the function still returns an ordinary
result built from the accumulated displacements, and only for `n = 0`
does it fail, with a `NameError` on the never-assigned `Q`, not with a
reported numerical failure. -/
theorem c3_singular_returns_partial_result (ker : Kernel) (F U : Vec) (sup : List Bool)
    (maxIter n : ℕ) (h : (winklerLoop ker F U sup maxIter).outcome = .singular n) :
    (winklerLoop ker F U sup maxIter).solves = n + 1 ∧
    (∃ s', trajState ker F sup (initState ker F U) n = some s' ∧
      (winklerLoop ker F U sup maxIter).d = s'.d ∧
      (winklerLoop ker F U sup maxIter).Q = s'.Qprev) ∧
    (1 ≤ n → ∃ r, simpleWinklerAnalysis ker (some ()) F U sup maxIter = .ok (some r) ∧
      r.d = (winklerLoop ker F U sup maxIter).d ∧ r.outcome = .singular n ∧
      r.solves = n + 1) ∧
    (n = 0 → simpleWinklerAnalysis ker (some ()) F U sup maxIter = .error .nameError) := by
  rcases loopAux_singular_result ker F sup (maxIter + 1) 0 (initState ker F U) 0 [] false n h
    with ⟨k, s', hn, hts, hd, hq, hs⟩
  have hkn : k = n := by omega
  subst hkn
  have hd' : (winklerLoop ker F U sup maxIter).d = s'.d := hd
  have hq' : (winklerLoop ker F U sup maxIter).Q = s'.Qprev := hq
  have hs' : (winklerLoop ker F U sup maxIter).solves = k + 1 := by
    have hs2 : (winklerLoop ker F U sup maxIter).solves = 0 + k + 1 := hs
    omega
  refine ⟨hs', ⟨s', hts, hd', hq'⟩, ?_, ?_⟩
  · intro h1
    have hqs : s'.Qprev.isSome :=
      trajState_Qprev_isSome ker F sup (initState ker F U) k s' h1 hts
    rcases Option.isSome_iff_exists.mp hqs with ⟨q, hq2⟩
    have hQ : (winklerLoop ker F U sup maxIter).Q = some q := by
      rw [hq', hq2]
    refine ⟨⟨(winklerLoop ker F U sup maxIter).d, q,
      ker.pileInternalForces (winklerLoop ker F U sup maxIter).d, .singular k,
      (winklerLoop ker F U sup maxIter).solves, (winklerLoop ker F U sup maxIter).trace,
      (winklerLoop ker F U sup maxIter).notConvPrinted⟩, ?_, rfl, rfl, hs'⟩
    simp only [simpleWinklerAnalysis]
    rw [hQ, ← h]
  · intro h0
    subst h0
    simp only [trajState, Option.some.injEq] at hts
    have hQ : (winklerLoop ker F U sup maxIter).Q = none := by
      rw [hq', ← hts]
      rfl
    simp only [simpleWinklerAnalysis]
    rw [hQ]

set_option maxRecDepth 8000 in
/-- C3 counterexample: a run whose second solve is singular.  The
analysis does not surface a failure: it returns an ordinary result
built from the partial displacement state `d = [1]` accumulated before
the singular solve (with the reactions of the previous pass), refuting
the claim that the partial state is discarded and a hard failure is
reported to the caller. -/
theorem c3_counterexample :
    simpleWinklerAnalysis c3Ker (some ()) [7] [0] [false] 100 =
      .ok (some ⟨[1], [0], [1], .singular 1, 2, [(7, 6)], false⟩) := by
  norm_num [simpleWinklerAnalysis, winklerLoop, winklerLoopAux, stepCore, advance, initState,
    c3Ker, convTest, matVec, vadd, vsub, vneg, freePart, qabs]

set_option maxRecDepth 8000 in
theorem c3_singular_returns_partial_result_witness :
    (winklerLoop c3Ker [7] [0] [false] 100).outcome = .singular 1 ∧
    ((winklerLoop c3Ker [7] [0] [false] 100).solves = 1 + 1 ∧
      (∃ s', trajState c3Ker [7] [false] (initState c3Ker [7] [0]) 1 = some s' ∧
        (winklerLoop c3Ker [7] [0] [false] 100).d = s'.d ∧
        (winklerLoop c3Ker [7] [0] [false] 100).Q = s'.Qprev) ∧
      (1 ≤ 1 → ∃ r, simpleWinklerAnalysis c3Ker (some ()) [7] [0] [false] 100 = .ok (some r) ∧
        r.d = (winklerLoop c3Ker [7] [0] [false] 100).d ∧ r.outcome = .singular 1 ∧
        r.solves = 1 + 1) ∧
      (1 = 0 → simpleWinklerAnalysis c3Ker (some ()) [7] [0] [false] 100 =
        .error .nameError)) := by
  have h : (winklerLoop c3Ker [7] [0] [false] 100).outcome = .singular 1 := by
    norm_num [winklerLoop, winklerLoopAux, stepCore, advance, initState,
      c3Ker, convTest, matVec, vadd, vsub, vneg, freePart, qabs]
  exact ⟨h, c3_singular_returns_partial_result c3Ker [7] [0] [false] 100 1 h⟩

/-- C4 (amended): with budget `max_iter` the loop body runs at most
`max_iter + 1` times (the iteration counter goes from 0 to `max_iter`
inclusive, so the default budget 100 allows 101 passes, each with one
solve); if the budget is exhausted without meeting the residual
criterion the analysis still returns a result computed from the last
displacement state, with the not-converged printout fired (for the
default budget), rather than raising a hard failure. -/
theorem c4_iteration_budget (ker : Kernel) (F U : Vec) (sup : List Bool) (maxIter : ℕ) :
    (winklerLoop ker F U sup maxIter).solves ≤ maxIter + 1 ∧
    ((winklerLoop ker F U sup maxIter).outcome = .exhausted →
      (winklerLoop ker F U sup maxIter).solves = maxIter + 1 ∧
      ∃ r, simpleWinklerAnalysis ker (some ()) F U sup maxIter = .ok (some r) ∧
        r.d = (winklerLoop ker F U sup maxIter).d ∧ r.outcome = .exhausted ∧
        r.notConvPrinted = (winklerLoop ker F U sup maxIter).notConvPrinted) ∧
    (100 ≤ maxIter → (winklerLoop ker F U sup maxIter).outcome = .exhausted →
      (winklerLoop ker F U sup maxIter).notConvPrinted = true) := by
  refine ⟨?_, ?_, ?_⟩
  · have := loopAux_solves_le ker F sup (maxIter + 1) 0 (initState ker F U) 0 [] false
    simpa [winklerLoop] using this
  · intro he
    constructor
    · have := loopAux_exhausted_solves ker F sup (maxIter + 1) 0 (initState ker F U) 0 [] false he
      simpa [winklerLoop] using this
    · rcases loopAux_exhausted_d ker F sup (maxIter + 1) 0 (initState ker F U) 0 [] false he
        with ⟨s', hts, hd, hq⟩
      have hq' : (winklerLoop ker F U sup maxIter).Q = s'.Qprev := hq
      have hqs : s'.Qprev.isSome :=
        trajState_Qprev_isSome ker F sup (initState ker F U) (maxIter + 1) s' (by omega) hts
      rcases Option.isSome_iff_exists.mp hqs with ⟨q, hq2⟩
      have hQ : (winklerLoop ker F U sup maxIter).Q = some q := by
        rw [hq', hq2]
      refine ⟨⟨(winklerLoop ker F U sup maxIter).d, q,
        ker.pileInternalForces (winklerLoop ker F U sup maxIter).d, .exhausted,
        (winklerLoop ker F U sup maxIter).solves, (winklerLoop ker F U sup maxIter).trace,
        (winklerLoop ker F U sup maxIter).notConvPrinted⟩, ?_, rfl, rfl, rfl⟩
      simp only [simpleWinklerAnalysis]
      rw [hQ, ← he]
  · intro h100 he
    exact loopAux_exhausted_printed ker F sup (maxIter + 1) 0 (initState ker F U) 0 [] false
      (by omega) (by omega) he

/-- C4 counterexample: under an oracle whose residual test never passes,
the default budget `max_iter = 100` performs 101 solve passes (the
iteration counter runs 0 to 100 inclusive), refuting "at most 100
iterations". -/
theorem c4_counterexample :
    (winklerLoop c4Ker [0] [0] [true] 100).solves = 101 ∧
    (winklerLoop c4Ker [0] [0] [true] 100).outcome = .exhausted ∧
    ¬ ((winklerLoop c4Ker [0] [0] [true] 100).solves ≤ 100) := by
  have hstep : ∀ s : LoopState, ∃ o, stepCore c4Ker [0] [true] s = some o ∧ ¬ convTest o := by
    intro s
    have hzip : ∀ l : Vec, (List.zipWith (fun a b => a * b) ([0] : Vec) l).sum = 0 := by
      intro l
      cases l <;> simp
    refine ⟨⟨[0], [0], vadd s.d [0], [0], 0, 0⟩, ?_, ?_⟩
    · simp [stepCore, c4Ker, vsub, vadd, vneg, matVec, freePart, qabs, hzip]
    · simp [convTest]
  have he : (winklerLoop c4Ker [0] [0] [true] 100).outcome = .exhausted :=
    loopAux_no_stop_exhausted c4Ker [0] [true] hstep 101 0 (initState c4Ker [0] [0]) 0 [] false
  have hs : (winklerLoop c4Ker [0] [0] [true] 100).solves = 0 + 101 :=
    loopAux_exhausted_solves c4Ker [0] [true] 101 0 (initState c4Ker [0] [0]) 0 [] false he
  refine ⟨by omega, he, by omega⟩

theorem c4_iteration_budget_witness :
    (winklerLoop c4Ker [0] [0] [true] 100).outcome = .exhausted ∧ 100 ≤ 100 ∧
    ((winklerLoop c4Ker [0] [0] [true] 100).solves ≤ 100 + 1 ∧
      ((winklerLoop c4Ker [0] [0] [true] 100).outcome = .exhausted →
        (winklerLoop c4Ker [0] [0] [true] 100).solves = 100 + 1 ∧
        ∃ r, simpleWinklerAnalysis c4Ker (some ()) [0] [0] [true] 100 = .ok (some r) ∧
          r.d = (winklerLoop c4Ker [0] [0] [true] 100).d ∧ r.outcome = .exhausted ∧
          r.notConvPrinted = (winklerLoop c4Ker [0] [0] [true] 100).notConvPrinted) ∧
      (100 ≤ 100 → (winklerLoop c4Ker [0] [0] [true] 100).outcome = .exhausted →
        (winklerLoop c4Ker [0] [0] [true] 100).notConvPrinted = true)) := by
  have hstep : ∀ s : LoopState, ∃ o, stepCore c4Ker [0] [true] s = some o ∧ ¬ convTest o := by
    intro s
    have hzip : ∀ l : Vec, (List.zipWith (fun a b => a * b) ([0] : Vec) l).sum = 0 := by
      intro l
      cases l <;> simp
    refine ⟨⟨[0], [0], vadd s.d [0], [0], 0, 0⟩, ?_, ?_⟩
    · simp [stepCore, c4Ker, vsub, vadd, vneg, matVec, freePart, qabs, hzip]
    · simp [convTest]
  have he : (winklerLoop c4Ker [0] [0] [true] 100).outcome = .exhausted :=
    loopAux_no_stop_exhausted c4Ker [0] [true] hstep 101 0 (initState c4Ker [0] [0]) 0 [] false
  exact ⟨he, by omega, c4_iteration_budget c4Ker [0] [0] [true] 100⟩

/-- C10: `simple_winkler_analysis` on a model whose soil profile is
absent returns `None` and raises no exception; the `UserWarning` is
constructed but never raised, and no analysis result is produced. -/
theorem c10_no_soil_returns_none (ker : Kernel) (F U : Vec) (sup : List Bool) (maxIter : ℕ) :
    simpleWinklerAnalysis ker none F U sup maxIter = .ok none := rfl

theorem mem_insertUD (a x : ℚ) : ∀ l : List ℚ, x ∈ insertUD a l ↔ x = a ∨ x ∈ l := by
  intro l
  induction l with
  | nil => simp [insertUD]
  | cons b t ih =>
    by_cases h1 : b < a
    · simp [insertUD, h1]
    · by_cases h2 : a = b
      · subst h2
        have hres : insertUD a (a :: t) = a :: t := by
          rw [insertUD, if_neg h1, if_pos rfl]
        rw [hres]
        simp only [List.mem_cons]
        tauto
      · simp only [insertUD, if_neg h1, if_neg h2, List.mem_cons, ih]
        tauto

theorem pairwise_insertUD (a : ℚ) : ∀ l : List ℚ, l.Pairwise (fun x y => y < x) →
    (insertUD a l).Pairwise (fun x y => y < x) := by
  intro l
  induction l with
  | nil =>
    intro _
    simp [insertUD]
  | cons b t ih =>
    intro hp
    rcases List.pairwise_cons.mp hp with ⟨hb, ht⟩
    by_cases h1 : b < a
    · simp only [insertUD, if_pos h1]
      refine List.pairwise_cons.mpr ⟨?_, hp⟩
      intro y hy
      rcases List.mem_cons.mp hy with hy1 | hy2
      · rw [hy1]; exact h1
      · exact lt_trans (hb y hy2) h1
    · by_cases h2 : a = b
      · subst h2
        have hres : insertUD a (a :: t) = a :: t := by
          rw [insertUD, if_neg h1, if_pos rfl]
        rw [hres]
        exact hp
      · simp only [insertUD, if_neg h1, if_neg h2]
        refine List.pairwise_cons.mpr ⟨?_, ih ht⟩
        intro y hy
        rcases (mem_insertUD a y t).mp hy with hy1 | hy2
        · rw [hy1]
          rcases lt_trichotomy a b with h | h | h
          · exact h
          · exact absurd h h2
          · exact absurd h h1
        · exact hb y hy2

theorem mem_uniqueSortDesc (x : ℚ) (l : List ℚ) : x ∈ uniqueSortDesc l ↔ x ∈ l := by
  induction l with
  | nil => simp [uniqueSortDesc]
  | cons b t ih =>
    simp only [uniqueSortDesc, List.foldr_cons]
    rw [mem_insertUD]
    simp only [uniqueSortDesc] at ih
    rw [ih]
    simp

theorem pairwise_uniqueSortDesc (l : List ℚ) :
    (uniqueSortDesc l).Pairwise (fun x y => y < x) := by
  induction l with
  | nil => simp [uniqueSortDesc]
  | cons b t ih =>
    simp only [uniqueSortDesc, List.foldr_cons]
    exact pairwise_insertUD b _ ih

theorem desc_eq_of_mem_iff : ∀ (l₁ l₂ : List ℚ), l₁.Pairwise (fun x y => y < x) →
    l₂.Pairwise (fun x y => y < x) → (∀ x, x ∈ l₁ ↔ x ∈ l₂) → l₁ = l₂ := by
  intro l₁
  induction l₁ with
  | nil =>
    intro l₂ _ _ hmem
    cases l₂ with
    | nil => rfl
    | cons b t => exact absurd ((hmem b).mpr (List.mem_cons_self b t)) (by simp)
  | cons a t₁ ih =>
    intro l₂ h1 h2 hmem
    cases l₂ with
    | nil => exact absurd ((hmem a).mp (List.mem_cons_self a t₁)) (by simp)
    | cons b t₂ =>
      rcases List.pairwise_cons.mp h1 with ⟨ha, ht₁⟩
      rcases List.pairwise_cons.mp h2 with ⟨hb, ht₂⟩
      have hab : a = b := by
        rcases List.mem_cons.mp ((hmem a).mp (List.mem_cons_self a t₁)) with h | h
        · exact h
        · rcases List.mem_cons.mp ((hmem b).mpr (List.mem_cons_self b t₂)) with h' | h'
          · exact h'.symm
          · exact absurd (lt_trans (hb a h) (ha b h')) (lt_irrefl a)
      subst hab
      have hmem' : ∀ x, x ∈ t₁ ↔ x ∈ t₂ := by
        intro x
        constructor
        · intro hx
          rcases List.mem_cons.mp ((hmem x).mp (List.mem_cons.mpr (Or.inr hx))) with h | h
          · exact absurd (ha x hx) (by rw [h]; exact lt_irrefl a)
          · exact h
        · intro hx
          rcases List.mem_cons.mp ((hmem x).mpr (List.mem_cons.mpr (Or.inr hx))) with h | h
          · exact absurd (hb x hx) (by rw [h]; exact lt_irrefl a)
          · exact h
      rw [ih t₂ ht₁ ht₂ hmem']

theorem dividerLoop_spec (spacing c : ℚ) :
    ∀ (fuel d : ℕ), 1 ≤ d → spacing / ((d : ℚ) + (fuel : ℚ)) ≤ c →
      (d ≤ dividerLoop spacing c fuel d ∧
       spacing / (dividerLoop spacing c fuel d : ℚ) ≤ c ∧
       ∀ m : ℕ, d ≤ m → m < dividerLoop spacing c fuel d → c < spacing / (m : ℚ)) := by
  intro fuel
  induction fuel with
  | zero =>
    intro d hd hfuel
    refine ⟨le_refl d, ?_, ?_⟩
    · simpa using hfuel
    · intro m hm1 hm2
      simp only [dividerLoop] at hm2
      omega
  | succ fuel ih =>
    intro d hd hfuel
    by_cases h : c < spacing / (d : ℚ)
    · have hstep : dividerLoop spacing c (fuel + 1) d = dividerLoop spacing c fuel (d + 1) := by
        rw [dividerLoop, if_pos h]
      have hfuel' : spacing / (((d + 1 : ℕ) : ℚ) + (fuel : ℚ)) ≤ c := by
        have harith : (((d + 1 : ℕ) : ℚ) + (fuel : ℚ)) = ((d : ℚ) + ((fuel + 1 : ℕ) : ℚ)) := by
          push_cast
          ring
        rw [harith]
        exact hfuel
      rcases ih (d + 1) (by omega) hfuel' with ⟨h1, h2, h3⟩
      rw [hstep]
      refine ⟨by omega, h2, ?_⟩
      intro m hm1 hm2
      by_cases hmd : m = d
      · subst hmd
        exact h
      · exact h3 m (by omega) hm2
    · have hstep : dividerLoop spacing c (fuel + 1) d = d := by
        rw [dividerLoop, if_neg h]
      rw [hstep]
      exact ⟨le_refl d, not_lt.mp h, by omega⟩

theorem divider_spec (spacing c : ℚ) (hc : 0 < c) (hs : 0 < spacing) :
    1 ≤ divider spacing c ∧ spacing / (divider spacing c : ℚ) ≤ c ∧
      ∀ m : ℕ, 1 ≤ m → m < divider spacing c → c < spacing / (m : ℚ) := by
  have hfuel : spacing / ((1 : ℚ) + (((Int.ceil (spacing / c)).toNat + 1 : ℕ) : ℚ)) ≤ c := by
    have hceil : (spacing / c) ≤ (((Int.ceil (spacing / c)).toNat : ℕ) : ℚ) := by
      have h1 : (spacing / c) ≤ ((Int.ceil (spacing / c) : ℤ) : ℚ) := Int.le_ceil _
      have h2 : (Int.ceil (spacing / c) : ℤ) ≤ ((Int.ceil (spacing / c)).toNat : ℤ) :=
        Int.self_le_toNat _
      calc spacing / c ≤ ((Int.ceil (spacing / c) : ℤ) : ℚ) := h1
        _ ≤ _ := by exact_mod_cast h2
    have hbig : spacing / c ≤ (1 : ℚ) + (((Int.ceil (spacing / c)).toNat + 1 : ℕ) : ℚ) := by
      push_cast
      push_cast at hceil
      linarith
    have hpos : (0 : ℚ) < (1 : ℚ) + (((Int.ceil (spacing / c)).toNat + 1 : ℕ) : ℚ) := by
      positivity
    rw [div_le_iff hpos]
    rw [div_le_iff hc] at hbig
    linarith [mul_comm c ((1 : ℚ) + (((Int.ceil (spacing / c)).toNat + 1 : ℕ) : ℚ))]
  exact dividerLoop_spec spacing c ((Int.ceil (spacing / c)).toNat + 1) 1 (by omega) hfuel

theorem divider_div_le (spacing c : ℚ) (hc : 0 < c) (hs : 0 < spacing) :
    spacing / (divider spacing c : ℚ) ≤ c :=
  (divider_spec spacing c hc hs).2.1

theorem divider_pos (spacing c : ℚ) (hc : 0 < c) (hs : 0 < spacing) :
    1 ≤ divider spacing c :=
  (divider_spec spacing c hc hs).1

theorem divider_eq_one (spacing c : ℚ) (hle : spacing ≤ c) :
    divider spacing c = 1 := by
  have h : ¬ c < spacing / ((1 : ℕ) : ℚ) := by
    simp only [Nat.cast_one, div_one]
    exact not_lt.mpr hle
  rw [divider, dividerLoop, if_neg h]

theorem divider_eq_ceil (spacing c : ℚ) (hc : 0 < c) (hlt : c < spacing) :
    ((divider spacing c : ℕ) : ℤ) = Int.ceil (spacing / c) := by
  have hs : 0 < spacing := lt_trans hc hlt
  rcases divider_spec spacing c hc hs with ⟨h1, h2, h3⟩
  have hkpos : (0 : ℚ) < ((divider spacing c : ℕ) : ℚ) := by
    exact_mod_cast h1
  have hle1 : Int.ceil (spacing / c) ≤ ((divider spacing c : ℕ) : ℤ) := by
    rw [Int.ceil_le]
    push_cast
    rw [div_le_iff hc]
    rw [div_le_iff hkpos] at h2
    linarith [mul_comm c ((divider spacing c : ℕ) : ℚ)]
  have hge1 : ((divider spacing c : ℕ) : ℤ) ≤ Int.ceil (spacing / c) := by
    by_contra hcon
    push_neg at hcon
    have hceil1 : (1 : ℤ) ≤ Int.ceil (spacing / c) := by
      have hpos : (0 : ℤ) < Int.ceil (spacing / c) := by
        rw [Int.lt_ceil]
        push_cast
        exact div_pos hs hc
      omega
    set m : ℕ := (Int.ceil (spacing / c)).toNat with hm
    have hmZ : ((m : ℕ) : ℤ) = Int.ceil (spacing / c) := Int.toNat_of_nonneg (by omega)
    have hm1 : 1 ≤ m := by omega
    have hmlt : m < divider spacing c := by omega
    have hlt2 := h3 m hm1 hmlt
    have hmpos : (0 : ℚ) < ((m : ℕ) : ℚ) := by
      exact_mod_cast hm1
    rw [lt_div_iff hmpos] at hlt2
    have hceilm : spacing / c ≤ ((m : ℕ) : ℚ) := by
      have h4 : spacing / c ≤ ((Int.ceil (spacing / c) : ℤ) : ℚ) := Int.le_ceil _
      rw [← hmZ] at h4
      exact_mod_cast h4
    rw [div_le_iff hc] at hceilm
    linarith [mul_comm c ((m : ℕ) : ℚ)]
  omega

theorem chain_arith (c s : ℚ) (hs : 0 < s) (hsc : s ≤ c) :
    ∀ (m : ℕ) (a : ℚ), List.Chain' (fun x y => y < x ∧ x - y ≤ c)
      (a :: ((List.range m).map (fun j : ℕ => a - ((j : ℚ) + 1) * s) ++
        [a - ((m : ℚ) + 1) * s])) := by
  intro m
  induction m with
  | zero =>
    intro a
    simp only [List.range_zero, List.map_nil, List.nil_append, Nat.cast_zero]
    refine List.chain'_cons.mpr ⟨⟨by nlinarith, by nlinarith⟩, List.chain'_singleton _⟩
  | succ m ih =>
    intro a
    have hrange : List.range (m + 1) = 0 :: (List.range m).map Nat.succ :=
      List.range_succ_eq_map m
    rw [hrange]
    simp only [List.map_cons, List.map_map]
    have hfun : ((fun j : ℕ => a - ((j : ℚ) + 1) * s) ∘ Nat.succ) =
        (fun j : ℕ => (a - s) - ((j : ℚ) + 1) * s) := by
      funext j
      simp only [Function.comp_apply]
      push_cast
      ring
    have hhead : a - (((0 : ℕ) : ℚ) + 1) * s = a - s := by
      push_cast
      ring
    have hlast : a - (((m + 1 : ℕ) : ℚ) + 1) * s = (a - s) - ((m : ℚ) + 1) * s := by
      push_cast
      ring
    rw [hfun, hhead, hlast]
    refine List.chain'_cons.mpr ⟨⟨by linarith, by linarith⟩, ih (a - s)⟩

theorem chain_block (a b c : ℚ) (hab : b < a) (hc : 0 < c) :
    List.Chain' (fun x y => y < x ∧ x - y ≤ c) (a :: (intermediates a b c ++ [b])) := by
  have hs0 : 0 < a - b := by linarith
  have hk1 : 1 ≤ divider (a - b) c := divider_pos (a - b) c hc hs0
  have hkpos : (0 : ℚ) < ((divider (a - b) c : ℕ) : ℚ) := by
    exact_mod_cast hk1
  have hspos : 0 < (a - b) / ((divider (a - b) c : ℕ) : ℚ) := div_pos hs0 hkpos
  have hsle : (a - b) / ((divider (a - b) c : ℕ) : ℚ) ≤ c := divider_div_le (a - b) c hc hs0
  have hb : a - (((divider (a - b) c - 1 : ℕ) : ℚ) + 1) *
      ((a - b) / ((divider (a - b) c : ℕ) : ℚ)) = b := by
    have hcast : ((divider (a - b) c - 1 : ℕ) : ℚ) + 1 = ((divider (a - b) c : ℕ) : ℚ) := by
      have heq : (divider (a - b) c - 1) + 1 = divider (a - b) c := by omega
      exact_mod_cast congrArg (fun n : ℕ => (n : ℚ)) heq
    rw [hcast]
    field_simp
  have hmain := chain_arith c ((a - b) / ((divider (a - b) c : ℕ) : ℚ)) hspos hsle
    (divider (a - b) c - 1) a
  rw [hb] at hmain
  rw [intermediates]
  exact hmain

theorem blockChain_head (c : ℚ) (a : ℚ) (l : List ℚ) :
    ∃ t, blockChain c (a :: l) = a :: t := by
  cases l with
  | nil => exact ⟨[], rfl⟩
  | cons b rest => exact ⟨intermediates a b c ++ blockChain c (b :: rest), rfl⟩

theorem mem_intermediates (a b c : ℚ) (hab : b < a) (hc : 0 < c) :
    ∀ x ∈ intermediates a b c, b < x ∧ x < a := by
  have hchain := chain_block a b c hab hc
  have hgt : List.Chain' (fun x y => y < x) (a :: (intermediates a b c ++ [b])) :=
    List.Chain'.imp (fun x y h => h.1) hchain
  have htrans : Transitive (fun x y : ℚ => y < x) := fun x y z h1 h2 => lt_trans h2 h1
  have hpw : List.Pairwise (fun x y => y < x) (a :: (intermediates a b c ++ [b])) :=
    List.chain'_iff_pairwise.mp hgt
  intro x hx
  rcases List.pairwise_cons.mp hpw with ⟨hhead, htail⟩
  constructor
  · rcases List.pairwise_append.mp htail with ⟨_, _, hcross⟩
    exact hcross x hx b (List.mem_singleton_self b)
  · exact hhead x (List.mem_append_left _ hx)

theorem mem_blockChain (c : ℚ) : ∀ (l : List ℚ) (x : ℚ),
    x ∈ blockChain c l ↔
      x ∈ l ∨ ∃ p ∈ adjacentPairs l, x ∈ intermediates p.1 p.2 c := by
  intro l
  induction l with
  | nil =>
    intro x
    simp [blockChain, adjacentPairs]
  | cons a rest ih =>
    intro x
    cases rest with
    | nil =>
      simp [blockChain, adjacentPairs]
    | cons b rest' =>
      have hstep : blockChain c (a :: b :: rest') =
          a :: (intermediates a b c ++ blockChain c (b :: rest')) := rfl
      have hpairs : adjacentPairs (a :: b :: rest') =
          (a, b) :: adjacentPairs (b :: rest') := rfl
      rw [hstep, hpairs]
      simp only [List.mem_cons, List.mem_append, ih x]
      constructor
      · rintro (h | h | h | ⟨p, hp, hx⟩)
        · exact Or.inl (Or.inl h)
        · exact Or.inr ⟨(a, b), Or.inl rfl, h⟩
        · exact Or.inl (Or.inr h)
        · exact Or.inr ⟨p, Or.inr hp, hx⟩
      · rintro ((h | h) | ⟨p, hp, hx⟩)
        · exact Or.inl h
        · exact Or.inr (Or.inr (Or.inl h))
        · rcases hp with hp1 | hp2
          · subst hp1
            exact Or.inr (Or.inl hx)
          · exact Or.inr (Or.inr (Or.inr ⟨p, hp2, hx⟩))

theorem chain_blockChain (c : ℚ) (hc : 0 < c) : ∀ (l : List ℚ),
    l.Pairwise (fun x y => y < x) →
    List.Chain' (fun x y => y < x ∧ x - y ≤ c) (blockChain c l) := by
  intro l
  induction l with
  | nil =>
    intro _
    simp [blockChain]
  | cons a rest ih =>
    intro hp
    cases rest with
    | nil => simp [blockChain]
    | cons b rest' =>
      rcases List.pairwise_cons.mp hp with ⟨ha, hrest⟩
      have hab : b < a := ha b (List.mem_cons_self _ _)
      have hblock := chain_block a b c hab hc
      have hbc : List.Chain' (fun x y => y < x ∧ x - y ≤ c) (blockChain c (b :: rest')) :=
        ih hrest
      have hstep : blockChain c (a :: b :: rest') =
          (a :: intermediates a b c) ++ blockChain c (b :: rest') := by
        simp [blockChain]
      rw [hstep]
      have hblock' : List.Chain' (fun x y => y < x ∧ x - y ≤ c)
          ((a :: intermediates a b c) ++ [b]) := hblock
      rcases List.chain'_append.mp hblock' with ⟨h1, _, h3⟩
      rw [List.chain'_append]
      refine ⟨h1, hbc, ?_⟩
      intro x hx y hy
      rcases blockChain_head c b rest' with ⟨t, ht⟩
      rw [ht] at hy
      simp only [List.head?_cons, Option.mem_def, Option.some.injEq] at hy
      subst hy
      exact h3 x hx b (by simp)

theorem blockChain_le_head (c : ℚ) (hc : 0 < c) (a : ℚ) (l : List ℚ)
    (hp : (a :: l).Pairwise (fun x y => y < x)) :
    ∀ x ∈ blockChain c (a :: l), x ≤ a := by
  intro x hx
  rcases (mem_blockChain c (a :: l) x).mp hx with h | ⟨p, hpmem, hpint⟩
  · rcases List.mem_cons.mp h with h1 | h2
    · exact le_of_eq h1
    · exact le_of_lt ((List.pairwise_cons.mp hp).1 x h2)
  · have hp1 : p.1 ∈ a :: l ∧ p.2 ∈ (a :: l).tail := by
      have := List.of_mem_zip hpmem
      exact this
    have hrel : p.2 < p.1 := by
      have hrelall : ∀ q ∈ adjacentPairs (a :: l), q.2 < q.1 := by
        intro q hq
        have hchain : List.Chain' (fun x y => y < x) (a :: l) :=
          List.chain'_iff_pairwise.mpr hp
        revert hq
        generalize a :: l = m at hchain
        induction m with
        | nil => simp [adjacentPairs]
        | cons u t ihm =>
          cases t with
          | nil => simp [adjacentPairs]
          | cons v t' =>
            intro hq
            rcases List.mem_cons.mp hq with h1 | h2
            · subst h1
              exact (List.chain'_cons.mp hchain).1
            · exact ihm (List.Chain'.tail hchain) h2
      exact hrelall p hpmem
    have hxlt : x < p.1 := (mem_intermediates p.1 p.2 c hrel hc x hpint).2
    have hple : p.1 ≤ a := by
      rcases List.mem_cons.mp hp1.1 with h1 | h2
      · exact le_of_eq h1
      · exact le_of_lt ((List.pairwise_cons.mp hp).1 p.1 h2)
    linarith

theorem adjacentPairs_rel (l : List ℚ) (hp : l.Pairwise (fun x y => y < x)) :
    ∀ q ∈ adjacentPairs l, q.2 < q.1 := by
  have hchain : List.Chain' (fun x y => y < x) l := List.chain'_iff_pairwise.mpr hp
  induction l with
  | nil => simp [adjacentPairs]
  | cons u t ihm =>
    cases t with
    | nil => simp [adjacentPairs]
    | cons v t' =>
      intro q hq
      rcases List.mem_cons.mp hq with h1 | h2
      · subst h1
        exact (List.chain'_cons.mp hchain).1
      · exact ihm (List.Pairwise.sublist (List.sublist_cons_self u (v :: t')) hp)
          (List.Chain'.tail hchain) q h2

theorem meshRaw_eq_blockChain (xs : List ℚ) (c : ℚ) (hc : 0 < c) :
    meshRaw xs c = blockChain c (uniqueSortDesc xs) := by
  apply desc_eq_of_mem_iff
  · exact pairwise_uniqueSortDesc _
  · have hch := chain_blockChain c hc (uniqueSortDesc xs) (pairwise_uniqueSortDesc xs)
    have hgt : List.Chain' (fun x y => y < x) (blockChain c (uniqueSortDesc xs)) :=
      List.Chain'.imp (fun x y h => h.1) hch
    exact List.chain'_iff_pairwise.mp hgt
  · intro x
    rw [meshRaw, mem_uniqueSortDesc, List.mem_append, mem_blockChain]
    constructor
    · rintro (h | h)
      · exact Or.inl h
      · rcases List.mem_bind.mp h with ⟨p, hp, hx⟩
        exact Or.inr ⟨p, hp, hx⟩
    · rintro (h | ⟨p, hp, hx⟩)
      · exact Or.inl h
      · exact Or.inr (List.mem_bind.mpr ⟨p, hp, hx⟩)

theorem blockChain_filter (c : ℚ) (hc : 0 < c) :
    ∀ (l : List ℚ), l.Pairwise (fun x y => y < x) →
    ∀ a b : ℚ, (a, b) ∈ adjacentPairs l →
      (blockChain c l).filter (fun x => decide (b < x) && decide (x < a)) =
        intermediates a b c := by
  intro l
  induction l with
  | nil =>
    intro _ a b h
    simp [adjacentPairs] at h
  | cons u rest ih =>
    intro hp a b hmem
    cases rest with
    | nil => simp [adjacentPairs] at hmem
    | cons v rest' =>
      have hpairs : adjacentPairs (u :: v :: rest') =
          (u, v) :: adjacentPairs (v :: rest') := rfl
      rw [hpairs] at hmem
      have hstep : blockChain c (u :: v :: rest') =
          u :: (intermediates u v c ++ blockChain c (v :: rest')) := rfl
      rcases List.pairwise_cons.mp hp with ⟨hu, hrest⟩
      have huv : v < u := hu v (List.mem_cons_self _ _)
      rw [hstep]
      rcases List.mem_cons.mp hmem with hcase | hcase
      · have ha2 : a = u := congrArg Prod.fst hcase
        have hb2 : b = v := congrArg Prod.snd hcase
        subst ha2
        subst hb2
        rw [List.filter_cons]
        have hpa : (decide (b < a) && decide (a < a)) = false := by
          simp
        rw [hpa]
        simp only [Bool.false_eq_true, if_false]
        rw [List.filter_append]
        have hfil1 : (intermediates a b c).filter
            (fun x => decide (b < x) && decide (x < a)) = intermediates a b c := by
          rw [List.filter_eq_self]
          intro x hx
          rcases mem_intermediates a b c huv hc x hx with ⟨h1, h2⟩
          simp [h1, h2]
        have hfil2 : (blockChain c (b :: rest')).filter
            (fun x => decide (b < x) && decide (x < a)) = [] := by
          rw [List.filter_eq_nil]
          intro x hx
          have hle : x ≤ b := blockChain_le_head c hc b rest' hrest x hx
          simp [not_lt.mpr hle]
        rw [hfil1, hfil2, List.append_nil]
      · have hav : a ≤ v := by
          have hmem2 := List.of_mem_zip hcase
          rcases List.mem_cons.mp hmem2.1 with h1 | h2
          · exact le_of_eq h1
          · exact le_of_lt ((List.pairwise_cons.mp hrest).1 a h2)
        rw [List.filter_cons]
        have hpu : (decide (b < u) && decide (u < a)) = false := by
          have : ¬ u < a := by linarith
          simp [this]
        rw [hpu]
        simp only [Bool.false_eq_true, if_false]
        rw [List.filter_append]
        have hfil1 : (intermediates u v c).filter
            (fun x => decide (b < x) && decide (x < a)) = [] := by
          rw [List.filter_eq_nil]
          intro x hx
          have hgtv : v < x := (mem_intermediates u v c huv hc x hx).1
          have : ¬ x < a := by linarith
          simp [this]
        rw [hfil1, List.nil_append]
        exact ih hrest a b hcase

/-- C5 (amended): for every coarseness `c > 0`, on the mesh coordinates
before the final 3-decimal rounding of the node table, every pair of
consecutive coordinates is at most `c` apart; every anchor-to-anchor
span wider than `c` is subdivided into exactly `ceil(span / c)` equal
subspans (the points strictly inside the span are precisely the
equally-spaced subdivision points), and spans already at most `c` wide
receive no interior point. -/
theorem c5_mesh_invariant_unrounded (xs : List ℚ) (c : ℚ) (hc : 0 < c) :
    List.Chain' (fun x y => y < x ∧ x - y ≤ c) (meshRaw xs c) ∧
    (∀ p ∈ adjacentPairs (uniqueSortDesc xs), c < p.1 - p.2 →
      (meshRaw xs c).filter (fun x => decide (p.2 < x) && decide (x < p.1)) =
        intermediates p.1 p.2 c ∧
      (intermediates p.1 p.2 c).length + 1 = divider (p.1 - p.2) c ∧
      ((divider (p.1 - p.2) c : ℕ) : ℤ) = Int.ceil ((p.1 - p.2) / c)) ∧
    (∀ p ∈ adjacentPairs (uniqueSortDesc xs), p.1 - p.2 ≤ c →
      intermediates p.1 p.2 c = []) := by
  refine ⟨?_, ?_, ?_⟩
  · rw [meshRaw_eq_blockChain xs c hc]
    exact chain_blockChain c hc (uniqueSortDesc xs) (pairwise_uniqueSortDesc xs)
  · rintro ⟨a, b⟩ hp hspan
    simp only at hspan
    have hrel : b < a := adjacentPairs_rel (uniqueSortDesc xs) (pairwise_uniqueSortDesc xs)
      (a, b) hp
    have hs0 : 0 < a - b := by linarith
    refine ⟨?_, ?_, ?_⟩
    · rw [meshRaw_eq_blockChain xs c hc]
      exact blockChain_filter c hc (uniqueSortDesc xs) (pairwise_uniqueSortDesc xs) a b hp
    · have hk := divider_pos (a - b) c hc hs0
      simp only [intermediates, List.length_map, List.length_range]
      omega
    · exact divider_eq_ceil (a - b) c hc hspan
  · rintro ⟨a, b⟩ hp hspan
    simp only at hspan
    have h1 : divider (a - b) c = 1 := divider_eq_one (a - b) c hspan
    simp [intermediates, h1]

/-- C5 counterexample: anchors 0 and -0.0026 with coarseness 0.0014.
The span is split into two subspans of 0.0013 each (at most the
coarseness), but rounding the node table to 3 decimals moves the mid
node to -0.001 and the bottom node to -0.003, leaving an element of
length 0.002 > 0.0014 whose endpoints are not anchor elevations: the
claimed invariant fails on the generated mesh. -/
theorem c5_counterexample :
    meshNodes [0, -26/10000] (14/10000) = [0, -1/1000, -3/1000] ∧
    ¬ meshInvariantClaim [0, -26/10000] (14/10000) := by
  have hmesh : meshNodes [0, -26/10000] (14/10000) = [0, -1/1000, -3/1000] := by
    have hceil : (Int.ceil ((13 : ℚ) / 7)).toNat = 2 := by
      have h1 : Int.ceil ((13 : ℚ) / 7) = 2 := by
        rw [Int.ceil_eq_iff]
        norm_num
      rw [h1]
      rfl
    have hf0 : Int.floor ((0 : ℚ)) = 0 := Int.floor_zero
    have hf1 : Int.floor ((-13 : ℚ) / 10) = -2 := by
      rw [Int.floor_eq_iff]
      norm_num
    have hf2 : Int.floor ((-13 : ℚ) / 5) = -3 := by
      rw [Int.floor_eq_iff]
      norm_num
    norm_num [meshNodes, meshRaw, uniqueSortDesc, insertUD, adjacentPairs, intermediates,
      divider, dividerLoop, hceil, round3, roundHalfEven, hf0, hf1, hf2]
  refine ⟨hmesh, ?_⟩
  intro hcl
  have h2 := hcl (-1/1000, -3/1000) (by rw [hmesh]; norm_num [adjacentPairs])
  rcases h2 with h | ⟨h, _⟩
  · norm_num at h
  · norm_num at h

theorem c5_mesh_invariant_unrounded_witness :
    0 < (2/5 : ℚ) ∧
    (List.Chain' (fun x y => y < x ∧ x - y ≤ (2/5 : ℚ)) (meshRaw [0, -1] (2/5)) ∧
    (∀ p ∈ adjacentPairs (uniqueSortDesc [0, -1]), (2/5 : ℚ) < p.1 - p.2 →
      (meshRaw [0, -1] (2/5)).filter (fun x => decide (p.2 < x) && decide (x < p.1)) =
        intermediates p.1 p.2 (2/5) ∧
      (intermediates p.1 p.2 (2/5)).length + 1 = divider (p.1 - p.2) (2/5) ∧
      ((divider (p.1 - p.2) (2/5) : ℕ) : ℤ) = Int.ceil ((p.1 - p.2) / (2/5))) ∧
    (∀ p ∈ adjacentPairs (uniqueSortDesc [0, -1]), p.1 - p.2 ≤ (2/5 : ℚ) →
      intermediates p.1 p.2 (2/5) = [])) :=
  ⟨by norm_num, c5_mesh_invariant_unrounded [0, -1] (2/5) (by norm_num)⟩

theorem optCumsumAux_map_some (a : ℚ) :
    ∀ l : List ℚ, optCumsumAux (some a) (l.map some) = (partialSumsFrom a l).map some := by
  intro l
  induction l generalizing a with
  | nil => simp [optCumsumAux, partialSumsFrom]
  | cons x t ih =>
    simp only [List.map_cons, optCumsumAux, partialSumsFrom]
    rw [ih (a + x)]

theorem partialSumsFrom_length (a : ℚ) :
    ∀ l : List ℚ, (partialSumsFrom a l).length = l.length := by
  intro l
  induction l generalizing a with
  | nil => rfl
  | cons x t ih =>
    simp only [partialSumsFrom, List.length_cons]
    rw [ih (a + x)]

theorem partialSumsFrom_getD (a : ℚ) :
    ∀ (l : List ℚ) (i : ℕ), i < l.length →
      (partialSumsFrom a l).getD i 0 = a + (l.take (i + 1)).sum := by
  intro l
  induction l generalizing a with
  | nil =>
    intro i hi
    simp at hi
  | cons x t ih =>
    intro i hi
    cases i with
    | zero =>
      simp [partialSumsFrom]
    | succ j =>
      simp only [partialSumsFrom, List.getD_cons_succ, List.take_succ_cons, List.sum_cons]
      rw [ih (a + x) j (by simpa using hi)]
      ring

theorem getD_map_some (l : List ℚ) (i : ℕ) (h : i < l.length) :
    (l.map some).getD i none = some (l.getD i 0) := by
  rw [List.getD_eq_getElem?_getD, List.getD_eq_getElem?_getD, List.getElem?_map]
  rw [List.getElem?_eq_getElem h]
  simp

theorem s_eq_contrib (elems : List (ℚ × ℚ)) (layers : List LayerEmb) (water : ℚ)
    (hw : ∀ e ∈ elems, (matchForward (soilProfileRowsAsc layers) e.1).isSome) :
    ((elems.zip (elems.map (fun e =>
        if e.1 ≤ water then (matchForward (soilProfileRowsAsc layers) e.1).map (fun v => v - 10)
        else matchForward (soilProfileRowsAsc layers) e.1))).map
      (fun p => p.2.map (fun v => (p.1.1 - p.1.2) * v))) =
    (contribList elems layers water).map some := by
  induction elems with
  | nil => rfl
  | cons e t ih =>
    have hwe := hw e (List.mem_cons_self _ _)
    rcases Option.isSome_iff_exists.mp hwe with ⟨w, hmw⟩
    have ht := ih (fun x hx => hw x (List.mem_cons.mpr (Or.inr hx)))
    simp only [List.map_cons, List.zip_cons_cons, contribList] at ht ⊢
    rw [ht]
    by_cases hwt : e.1 ≤ water
    · simp [hwt, hmw]
    · simp [hwt, hmw]

theorem posFilter_eq (elems : List (ℚ × ℚ)) (ground : ℚ) (hne : elems ≠ [])
    (hhead : (elems.headD (0, 0)).1 = ground)
    (hrest : ∀ i, 0 < i → i < elems.length → (elems.getD i (0, 0)).1 ≠ ground) :
    (List.range elems.length).filter
      (fun i => decide ((elems.getD i (0, 0)).1 = ground)) = [0] := by
  cases elems with
  | nil => exact absurd rfl hne
  | cons e t =>
    simp only [List.length_cons]
    rw [List.range_succ_eq_map]
    rw [List.filter_cons]
    have h0 : (decide ((((e :: t).getD 0 (0, 0)).1 = ground)) = true) := by
      simp only [List.getD_cons_zero]
      simp only [List.headD_cons] at hhead
      simp [hhead]
    rw [if_pos h0]
    have hrest2 : ((List.range t.length).map Nat.succ).filter
        (fun i => decide (((e :: t).getD i (0, 0)).1 = ground)) = [] := by
      rw [List.filter_map]
      have hnil : (List.range t.length).filter
          ((fun i => decide (((e :: t).getD i (0, 0)).1 = ground)) ∘ Nat.succ) = [] := by
        rw [List.filter_eq_nil]
        intro j hj
        simp only [Function.comp_apply, decide_eq_true_eq]
        have hj2 : j < t.length := List.mem_range.mp hj
        exact hrest (j + 1) (by omega) (by simp only [List.length_cons]; omega)
      rw [hnil]
      rfl
    rw [hrest2]

theorem getD_dropLast_q (l : List ℚ) (j : ℕ) (h : j + 1 < l.length) :
    l.dropLast.getD j 0 = l.getD j 0 := by
  rw [List.dropLast_eq_take]
  rw [List.getD_eq_getElem?_getD, List.getD_eq_getElem?_getD, List.getElem?_take]
  rw [if_pos (by omega)]

/-- C6 (amended): for a model whose topmost element top coincides with
the ground surface (and no other element top does), every element's
matched unit weight existing, the vertical effective stress at an
element's bottom is the cumulative sum of thickness × unit weight over
the elements down to and including it, and at its top the same sum
excluding it (zero at the ground surface); the unit weight of an
element is reduced by exactly 10 when the element's top elevation is at
or below the water elevation. -/
theorem c6_sigma_cumulative (elems : List (ℚ × ℚ)) (layers : List LayerEmb)
    (ground water : ℚ) (hne : elems ≠ [])
    (hhead : (elems.headD (0, 0)).1 = ground)
    (hrest : ∀ i, 0 < i → i < elems.length → (elems.getD i (0, 0)).1 ≠ ground)
    (hw : ∀ e ∈ elems, (matchForward (soilProfileRowsAsc layers) e.1).isSome) :
    (∀ i < elems.length,
      (soilProps elems layers ground water).sigmaBottom.getD i none =
        some (((contribList elems layers water).take (i + 1)).sum)) ∧
    (∃ sigT, (soilProps elems layers ground water).sigmaTop = .ok sigT ∧
      sigT.length = elems.length ∧
      ∀ i < elems.length,
        sigT.getD i none = some (((contribList elems layers water).take i).sum)) := by
  have hlenc : (contribList elems layers water).length = elems.length := by
    simp [contribList]
  have hlenp : (partialSumsFrom 0 (contribList elems layers water)).length = elems.length := by
    rw [partialSumsFrom_length]
    exact hlenc
  have hcums : (soilProps elems layers ground water).sigmaBottom =
      (partialSumsFrom 0 (contribList elems layers water)).map some := by
    simp only [soilProps]
    rw [s_eq_contrib elems layers water hw]
    rw [optCumsum, optCumsumAux_map_some]
  have hbot : ∀ i < elems.length,
      (soilProps elems layers ground water).sigmaBottom.getD i none =
        some (((contribList elems layers water).take (i + 1)).sum) := by
    intro i hi
    rw [hcums, getD_map_some _ i (by omega)]
    rw [partialSumsFrom_getD 0 _ i (by omega)]
    rw [zero_add]
  refine ⟨hbot, ?_⟩
  have hpos := posFilter_eq elems ground hne hhead hrest
  have htop : (soilProps elems layers ground water).sigmaTop =
      .ok (npInsertZeroAt ((partialSumsFrom 0 (contribList elems layers water)).map some).dropLast 0) := by
    have hcums2 : optCumsum ((elems.zip (elems.map (fun e =>
        if e.1 ≤ water then (matchForward (soilProfileRowsAsc layers) e.1).map (fun v => v - 10)
        else matchForward (soilProfileRowsAsc layers) e.1))).map
          (fun p => p.2.map (fun v => (p.1.1 - p.1.2) * v))) =
        (partialSumsFrom 0 (contribList elems layers water)).map some := by
      rw [s_eq_contrib elems layers water hw]
      rw [optCumsum, optCumsumAux_map_some]
    simp only [soilProps]
    rw [hcums2, hpos]
    rfl
  refine ⟨npInsertZeroAt ((partialSumsFrom 0 (contribList elems layers water)).map some).dropLast 0,
    htop, ?_, ?_⟩
  · simp only [npInsertZeroAt, List.take_zero, List.drop_zero, List.nil_append, List.length_cons,
      List.length_dropLast, List.length_map]
    rw [hlenp]
    have hn1 : 1 ≤ elems.length := by
      cases elems with
      | nil => exact absurd rfl hne
      | cons e t => simp
    omega
  · intro i hi
    simp only [npInsertZeroAt, List.take_zero, List.drop_zero, List.nil_append]
    cases i with
    | zero =>
      simp
    | succ j =>
      simp only [List.getD_cons_succ]
      have hdl : ((partialSumsFrom 0 (contribList elems layers water)).map some).dropLast =
          ((partialSumsFrom 0 (contribList elems layers water)).dropLast).map some := by
        rw [← List.map_dropLast]
      rw [hdl]
      have hjlen : j < (partialSumsFrom 0 (contribList elems layers water)).dropLast.length := by
        simp only [List.length_dropLast]
        omega
      rw [getD_map_some _ j hjlen]
      rw [getD_dropLast_q _ j (by omega)]
      rw [partialSumsFrom_getD 0 _ j (by omega)]
      rw [zero_add]

/-- C6 counterexample: a pile head at elevation 10 above a ground
surface at 0 (one layer 0 to -2, unit weight 20, water far below).  The
element above ground gets no matched layer (NaN weight), the NaN
poisons the running cumulative sum, and the stress at the bottom of the
fully buried element (0, -2) is NaN instead of the claimed cumulative
value 40. -/
theorem c6_counterexample :
    (soilProps [(10, 0), (0, -2)] [⟨0, -2, 20⟩] 0 (-100)).sigmaBottom = [none, none] ∧
    sigmaBottomSpec [(10, 0), (0, -2)] [⟨0, -2, 20⟩] 0 (-100) = [some 0, some 40] ∧
    ¬ ((soilProps [(10, 0), (0, -2)] [⟨0, -2, 20⟩] 0 (-100)).sigmaBottom =
        sigmaBottomSpec [(10, 0), (0, -2)] [⟨0, -2, 20⟩] 0 (-100)) := by
  refine ⟨?_, ?_, ?_⟩
  · norm_num [soilProps, soilProfileRowsAsc, insertAscBy, matchForward, optCumsum,
      optCumsumAux, List.find?]
  · norm_num [sigmaBottomSpec, soilProfileRowsAsc, insertAscBy, matchForward, optCumsum,
      optCumsumAux, List.find?]
  · intro hcon
    have h1 : (soilProps [(10, 0), (0, -2)] [⟨0, -2, 20⟩] 0 (-100)).sigmaBottom
        = [none, none] := by
      norm_num [soilProps, soilProfileRowsAsc, insertAscBy, matchForward, optCumsum,
        optCumsumAux, List.find?]
    have h2 : sigmaBottomSpec [(10, 0), (0, -2)] [⟨0, -2, 20⟩] 0 (-100)
        = [some 0, some 40] := by
      norm_num [sigmaBottomSpec, soilProfileRowsAsc, insertAscBy, matchForward, optCumsum,
        optCumsumAux, List.find?]
    rw [h1, h2] at hcon
    simp at hcon

theorem c6_sigma_cumulative_witness :
    ([((0 : ℚ), (-1 : ℚ)), ((-1 : ℚ), (-2 : ℚ))] ≠ ([] : List (ℚ × ℚ))) ∧
    (([((0 : ℚ), (-1 : ℚ)), ((-1 : ℚ), (-2 : ℚ))].headD (0, 0)).1 = (0 : ℚ)) ∧
    (∀ i, 0 < i → i < [((0 : ℚ), (-1 : ℚ)), ((-1 : ℚ), (-2 : ℚ))].length →
      ([((0 : ℚ), (-1 : ℚ)), ((-1 : ℚ), (-2 : ℚ))].getD i (0, 0)).1 ≠ (0 : ℚ)) ∧
    (∀ e ∈ [((0 : ℚ), (-1 : ℚ)), ((-1 : ℚ), (-2 : ℚ))],
      (matchForward (soilProfileRowsAsc [⟨0, -2, 20⟩]) e.1).isSome) ∧
    ((∀ i < [((0 : ℚ), (-1 : ℚ)), ((-1 : ℚ), (-2 : ℚ))].length,
      (soilProps [((0 : ℚ), (-1 : ℚ)), ((-1 : ℚ), (-2 : ℚ))] [⟨0, -2, 20⟩] 0
          (-1/2)).sigmaBottom.getD i none =
        some (((contribList [((0 : ℚ), (-1 : ℚ)), ((-1 : ℚ), (-2 : ℚ))] [⟨0, -2, 20⟩]
          (-1/2)).take (i + 1)).sum)) ∧
    (∃ sigT, (soilProps [((0 : ℚ), (-1 : ℚ)), ((-1 : ℚ), (-2 : ℚ))] [⟨0, -2, 20⟩] 0
        (-1/2)).sigmaTop = .ok sigT ∧
      sigT.length = [((0 : ℚ), (-1 : ℚ)), ((-1 : ℚ), (-2 : ℚ))].length ∧
      ∀ i < [((0 : ℚ), (-1 : ℚ)), ((-1 : ℚ), (-2 : ℚ))].length,
        sigT.getD i none = some (((contribList [((0 : ℚ), (-1 : ℚ)), ((-1 : ℚ), (-2 : ℚ))]
          [⟨0, -2, 20⟩] (-1/2)).take i).sum))) := by
  have hne : [((0 : ℚ), (-1 : ℚ)), ((-1 : ℚ), (-2 : ℚ))] ≠ ([] : List (ℚ × ℚ)) := by
    simp
  have hhead : (([((0 : ℚ), (-1 : ℚ)), ((-1 : ℚ), (-2 : ℚ))].headD (0, 0)).1 = (0 : ℚ)) := by
    norm_num
  have hrest : ∀ i, 0 < i → i < [((0 : ℚ), (-1 : ℚ)), ((-1 : ℚ), (-2 : ℚ))].length →
      ([((0 : ℚ), (-1 : ℚ)), ((-1 : ℚ), (-2 : ℚ))].getD i (0, 0)).1 ≠ (0 : ℚ) := by
    intro i h1 h2
    simp only [List.length_cons, List.length_nil] at h2
    interval_cases i
    norm_num
  have hw : ∀ e ∈ [((0 : ℚ), (-1 : ℚ)), ((-1 : ℚ), (-2 : ℚ))],
      (matchForward (soilProfileRowsAsc [⟨0, -2, 20⟩]) e.1).isSome := by
    intro e he
    rcases List.mem_cons.mp he with h | h
    · subst h
      norm_num [matchForward, soilProfileRowsAsc, insertAscBy, List.find?]
    · rcases List.mem_cons.mp h with h2 | h2
      · subst h2
        norm_num [matchForward, soilProfileRowsAsc, insertAscBy, List.find?]
      · simp at h2
  exact ⟨hne, hhead, hrest, hw,
    c6_sigma_cumulative [((0 : ℚ), (-1 : ℚ)), ((-1 : ℚ), (-2 : ℚ))] [⟨0, -2, 20⟩] 0 (-1/2)
      hne hhead hrest hw⟩

theorem getD_set_self {α : Type} :
    ∀ (l : List α) (i : ℕ) (a d : α), i < l.length → (l.set i a).getD i d = a := by
  intro l
  induction l with
  | nil =>
    intro i a d h
    simp at h
  | cons x t ih =>
    intro i a d h
    cases i with
    | zero => rfl
    | succ j =>
      simp only [List.set_cons_succ, List.getD_cons_succ]
      exact ih j a d (by simpa using h)

theorem matchingNodes_nil (nodes : List ℚ) (e : ℚ)
    (h : ∀ x ∈ nodes, ¬ (qabs (x - e) ≤ 1 / 1000 + 1 / 100000 * qabs e)) :
    matchingNodes nodes e = [] := by
  rw [matchingNodes, List.filter_eq_nil]
  intro i hi
  have hlt : i < nodes.length := List.mem_range.mp hi
  have hmem : nodes.getD i 0 ∈ nodes := by
    rw [List.getD_eq_getElem?_getD, List.getElem?_eq_getElem hlt]
    exact List.getElem_mem hlt
  simp only [isclose, decide_eq_true_eq]
  exact h (nodes.getD i 0) hmem

/-- C7 (amended): a boundary-condition call at an elevation farther than
numpy's effective tolerance `0.001 + 1e-5 * |elevation|` from every mesh
node is rejected by all three setters: the force table, the
prescribed-displacement table and the restraint mask are left exactly as
they were, and the diagnostic distinguishes an elevation outside the
mesh (above the first or below the last node) from one inside but not
meshed. -/
theorem c7_offmesh_rejection (m : BCState) (e : ℚ)
    (h : ∀ x ∈ m.nodes, ¬ (qabs (x - e) ≤ 1 / 1000 + 1 / 100000 * qabs e)) :
    (∀ a b c, setPointload m e a b c = .ok (m, offMeshDiag m.nodes e)) ∧
    (∀ a b c, setPointdisplacement m e a b c = .ok (m, offMeshDiag m.nodes e)) ∧
    (∀ a b c, setSupport m e a b c = .ok (m, offMeshDiag m.nodes e)) ∧
    (offMeshDiag m.nodes e = .outsideMesh ↔
      m.nodes.headD 0 < e ∨ e < m.nodes.getLastD 0) ∧
    (offMeshDiag m.nodes e = .notMeshed ↔
      ¬ (m.nodes.headD 0 < e ∨ e < m.nodes.getLastD 0)) := by
  have hm := matchingNodes_nil m.nodes e h
  refine ⟨?_, ?_, ?_, ?_, ?_⟩
  · intro a b c
    simp [setPointload, hm]
  · intro a b c
    simp [setPointdisplacement, hm]
  · intro a b c
    simp [setSupport, hm]
  · rw [offMeshDiag]
    by_cases hc : m.nodes.headD 0 < e ∨ e < m.nodes.getLastD 0
    · rw [if_pos hc]
      exact iff_of_true rfl hc
    · rw [if_neg hc]
      exact iff_of_false (by simp) hc
  · rw [offMeshDiag]
    by_cases hc : m.nodes.headD 0 < e ∨ e < m.nodes.getLastD 0
    · rw [if_pos hc]
      exact iff_of_false (by simp) (not_not_intro hc)
    · rw [if_neg hc]
      exact iff_of_true rfl hc

theorem c7_offmesh_rejection_witness :
    (∀ x ∈ c7W.nodes, ¬ (qabs (x - 10) ≤ 1 / 1000 + 1 / 100000 * qabs 10)) ∧
    ((∀ a b c, setPointload c7W 10 a b c = .ok (c7W, offMeshDiag c7W.nodes 10)) ∧
    (∀ a b c, setPointdisplacement c7W 10 a b c = .ok (c7W, offMeshDiag c7W.nodes 10)) ∧
    (∀ a b c, setSupport c7W 10 a b c = .ok (c7W, offMeshDiag c7W.nodes 10)) ∧
    (offMeshDiag c7W.nodes 10 = .outsideMesh ↔
      c7W.nodes.headD 0 < 10 ∨ (10 : ℚ) < c7W.nodes.getLastD 0) ∧
    (offMeshDiag c7W.nodes 10 = .notMeshed ↔
      ¬ (c7W.nodes.headD 0 < 10 ∨ (10 : ℚ) < c7W.nodes.getLastD 0))) := by
  have h : ∀ x ∈ c7W.nodes, ¬ (qabs (x - 10) ≤ 1 / 1000 + 1 / 100000 * qabs 10) := by
    intro x hx
    rcases List.mem_singleton.mp hx with rfl
    norm_num [qabs]
  exact ⟨h, c7_offmesh_rejection c7W 10 h⟩

/-- C7 counterexample: a node at elevation 100 and a requested elevation
100.0019, which is farther than 1 mm from every node.  numpy's default
relative tolerance makes `isclose` accept it
(`0.0019 ≤ 0.001 + 1e-5 * 100.0019`), so the load is applied and the
force table changes, refuting the claim that such a call is rejected
with all tables unchanged. -/
theorem c7_counterexample :
    (∀ x ∈ c7Model.nodes, 1 / 1000 < qabs (x - (100 + 19 / 10000))) ∧
    setPointload c7Model (100 + 19 / 10000) (some 5) none none =
      .ok (⟨[100, 0], [(0, 5, 0), (0, 0, 0)], [(0, 0, 0), (0, 0, 0)],
        [(false, false, false), (false, false, false)]⟩, .applied) ∧
    (⟨[100, 0], [(0, 5, 0), (0, 0, 0)], [(0, 0, 0), (0, 0, 0)],
        [(false, false, false), (false, false, false)]⟩ : BCState) ≠ c7Model := by
  refine ⟨?_, ?_, ?_⟩
  · intro x hx
    rcases List.mem_cons.mp hx with rfl | hx2
    · norm_num [qabs]
    · rcases List.mem_singleton.mp hx2 with rfl
      norm_num [qabs]
  · have hmatch : matchingNodes c7Model.nodes (100 + 19 / 10000) = [0] := by
      norm_num [matchingNodes, c7Model, isclose, qabs, List.range_succ]
    rw [setPointload, hmatch]
    rfl
  · intro hcon
    have h2 := congrArg BCState.forces hcon
    simp [c7Model] at h2

/-- C8: re-declaring a boundary condition at the same mesh-node
elevation overwrites the previous declaration: after two calls with
different values only the second is in effect, for point loads,
supports and point displacements alike; the first call's values do not
accumulate and disappear from the final state. -/
theorem c8_last_write_wins (m : BCState) (e : ℚ) (i : ℕ)
    (hm : matchingNodes m.nodes e = [i]) (hi : i < m.forces.length)
    (px₁ py₁ mz₁ px₂ py₂ mz₂ dx₁ dy₁ dr₁ dx₂ dy₂ dr₂ : ℚ)
    (tx ty rz tx' ty' rz' : Bool) :
    (∃ m₁ m₂,
      setPointload m e (some py₁) (some px₁) (some mz₁) = .ok (m₁, .applied) ∧
      setPointload m₁ e (some py₂) (some px₂) (some mz₂) = .ok (m₂, .applied) ∧
      m₂.forces = m.forces.set i (px₂, py₂, mz₂) ∧
      m₂.forces.getD i (0, 0, 0) = (px₂, py₂, mz₂)) ∧
    (∃ m₁ m₂,
      setSupport m e ty tx rz = .ok (m₁, .applied) ∧
      setSupport m₁ e ty' tx' rz' = .ok (m₂, .applied) ∧
      m₂.restrained = m.restrained.set i (tx', ty', rz')) ∧
    (∃ m₁ m₂,
      setPointdisplacement m e (some dy₁) (some dx₁) (some dr₁) = .ok (m₁, .applied) ∧
      setPointdisplacement m₁ e (some dy₂) (some dx₂) (some dr₂) = .ok (m₂, .applied) ∧
      m₂.disp = m.disp.set i (dx₂, dy₂, dr₂)) := by
  refine ⟨?_, ?_, ?_⟩
  · refine ⟨{ m with forces := m.forces.set i (px₁, py₁, mz₁) },
      { m with forces := (m.forces.set i (px₁, py₁, mz₁)).set i (px₂, py₂, mz₂) },
      ?_, ?_, ?_, ?_⟩
    · rw [setPointload, hm]
      rfl
    · rw [setPointload]
      have hnodes : ({ m with forces := m.forces.set i (px₁, py₁, mz₁) } : BCState).nodes =
          m.nodes := rfl
      rw [hnodes, hm]
      rfl
    · simp only []
      rw [List.set_set]
    · simp only []
      rw [List.set_set]
      exact getD_set_self m.forces i _ (0, 0, 0) hi
  · refine ⟨{ m with restrained := m.restrained.set i (tx, ty, rz) },
      { m with restrained := (m.restrained.set i (tx, ty, rz)).set i (tx', ty', rz') },
      ?_, ?_, ?_⟩
    · rw [setSupport, hm]
    · rw [setSupport]
      have hnodes : ({ m with restrained := m.restrained.set i (tx, ty, rz) } : BCState).nodes =
          m.nodes := rfl
      rw [hnodes, hm]
    · simp only []
      rw [List.set_set]
  · refine ⟨{ m with
        disp := m.disp.set i (dx₁, dy₁, dr₁),
        restrained := m.restrained.set i
          (decide (0 < dx₁), decide (0 < dy₁), decide (0 < dr₁)) },
      { m with
        disp := (m.disp.set i (dx₁, dy₁, dr₁)).set i (dx₂, dy₂, dr₂),
        restrained := (m.restrained.set i
          (decide (0 < dx₁), decide (0 < dy₁), decide (0 < dr₁))).set i
          (decide (0 < dx₂), decide (0 < dy₂), decide (0 < dr₂)) },
      ?_, ?_, ?_⟩
    · rw [setPointdisplacement, hm]
      rfl
    · rw [setPointdisplacement]
      have hnodes : ({ m with
          disp := m.disp.set i (dx₁, dy₁, dr₁),
          restrained := m.restrained.set i
            (decide (0 < dx₁), decide (0 < dy₁), decide (0 < dr₁)) } : BCState).nodes =
          m.nodes := rfl
      rw [hnodes, hm]
      rfl
    · simp only []
      rw [List.set_set]

theorem c8_last_write_wins_witness :
    matchingNodes c8W.nodes 0 = [0] ∧ 0 < c8W.forces.length ∧
    ((∃ m₁ m₂,
      setPointload c8W 0 (some 2) (some 1) (some 3) = .ok (m₁, .applied) ∧
      setPointload m₁ 0 (some 5) (some 4) (some 6) = .ok (m₂, .applied) ∧
      m₂.forces = c8W.forces.set 0 (4, 5, 6) ∧
      m₂.forces.getD 0 (0, 0, 0) = (4, 5, 6)) ∧
    (∃ m₁ m₂,
      setSupport c8W 0 true false false = .ok (m₁, .applied) ∧
      setSupport m₁ 0 false true true = .ok (m₂, .applied) ∧
      m₂.restrained = c8W.restrained.set 0 (true, false, true)) ∧
    (∃ m₁ m₂,
      setPointdisplacement c8W 0 (some 7) (some (-1)) (some 9) = .ok (m₁, .applied) ∧
      setPointdisplacement m₁ 0 (some 8) (some (-2)) (some 10) = .ok (m₂, .applied) ∧
      m₂.disp = c8W.disp.set 0 (-2, 8, 10))) := by
  have hm : matchingNodes c8W.nodes 0 = [0] := by
    norm_num [matchingNodes, c8W, isclose, qabs, List.range_succ]
  have hi : 0 < c8W.forces.length := by
    norm_num [c8W]
  exact ⟨hm, hi, c8_last_write_wins c8W 0 0 hm hi 1 2 3 4 5 6 (-1) 7 9 (-2) 8 10
    false true false true false true⟩

/-- C9: when `set_pointdisplacement` matches a mesh node, each supplied
component is recorded in the prescribed-displacement table, and the
corresponding restraint-mask entry becomes `true` exactly when the
supplied value is strictly positive: zero or negative values are still
recorded but leave the degree of freedom unrestrained; components not
supplied keep their previous displacement and restraint entries. -/
theorem c9_restraint_iff_positive (m : BCState) (e : ℚ) (i : ℕ)
    (hm : matchingNodes m.nodes e = [i]) (hid : i < m.disp.length)
    (hir : i < m.restrained.length) (tx ty rz : ℚ) :
    (∃ m', setPointdisplacement m e (some ty) (some tx) (some rz) = .ok (m', .applied) ∧
      m'.disp.getD i (0, 0, 0) = (tx, ty, rz) ∧
      m'.restrained.getD i (false, false, false) =
        (decide (0 < tx), decide (0 < ty), decide (0 < rz))) ∧
    (∃ m'', setPointdisplacement m e (some ty) none none = .ok (m'', .applied) ∧
      m''.disp.getD i (0, 0, 0) =
        ((m.disp.getD i (0, 0, 0)).1, ty, (m.disp.getD i (0, 0, 0)).2.2) ∧
      m''.restrained.getD i (false, false, false) =
        ((m.restrained.getD i (false, false, false)).1, decide (0 < ty),
          (m.restrained.getD i (false, false, false)).2.2)) := by
  constructor
  · refine ⟨{ m with
        disp := m.disp.set i (tx, ty, rz),
        restrained := m.restrained.set i
          (decide (0 < tx), decide (0 < ty), decide (0 < rz)) }, ?_, ?_, ?_⟩
    · rw [setPointdisplacement, hm]
      rfl
    · simp only []
      exact getD_set_self m.disp i _ (0, 0, 0) hid
    · simp only []
      exact getD_set_self m.restrained i _ (false, false, false) hir
  · refine ⟨{ m with
        disp := m.disp.set i
          ((m.disp.getD i (0, 0, 0)).1, ty, (m.disp.getD i (0, 0, 0)).2.2),
        restrained := m.restrained.set i
          ((m.restrained.getD i (false, false, false)).1, decide (0 < ty),
            (m.restrained.getD i (false, false, false)).2.2) }, ?_, ?_, ?_⟩
    · rw [setPointdisplacement, hm]
      rfl
    · simp only []
      exact getD_set_self m.disp i _ (0, 0, 0) hid
    · simp only []
      exact getD_set_self m.restrained i _ (false, false, false) hir

theorem c9_restraint_iff_positive_witness :
    matchingNodes c8W.nodes (-5) = [1] ∧ 1 < c8W.disp.length ∧ 1 < c8W.restrained.length ∧
    ((∃ m', setPointdisplacement c8W (-5) (some 0) (some (-1)) (some 2) = .ok (m', .applied) ∧
      m'.disp.getD 1 (0, 0, 0) = (-1, 0, 2) ∧
      m'.restrained.getD 1 (false, false, false) =
        (decide ((0 : ℚ) < -1), decide ((0 : ℚ) < 0), decide ((0 : ℚ) < 2))) ∧
    (∃ m'', setPointdisplacement c8W (-5) (some 0) none none = .ok (m'', .applied) ∧
      m''.disp.getD 1 (0, 0, 0) =
        ((c8W.disp.getD 1 (0, 0, 0)).1, 0, (c8W.disp.getD 1 (0, 0, 0)).2.2) ∧
      m''.restrained.getD 1 (false, false, false) =
        ((c8W.restrained.getD 1 (false, false, false)).1, decide ((0 : ℚ) < 0),
          (c8W.restrained.getD 1 (false, false, false)).2.2))) := by
  have hm : matchingNodes c8W.nodes (-5) = [1] := by
    norm_num [matchingNodes, c8W, isclose, qabs, List.range_succ]
  have hid : 1 < c8W.disp.length := by
    norm_num [c8W]
  have hir : 1 < c8W.restrained.length := by
    norm_num [c8W]
  exact ⟨hm, hid, hir, c9_restraint_iff_positive c8W (-5) 1 hm hid hir (-1) 0 2⟩

/-- C2: constructing a `Model` from a Pile and a coarseness alone, with
no SoilProfile (exactly the usage shown in the `Model` docstring,
construct.py lines 587-590), does not succeed: the root validator
`soil_and_pile_bottom_elevation_match` dereferences
`values["soil"].bottom_elevation` on `None` and construction raises an
`AttributeError` before any mesh is built (and `_postinit` would also
dereference `self.soil` unconditionally at lines 715-716, 832-849).
The docstring, `get_coordinates`'s own `self.soil is None` branch and
`simple_beam_analysis` all treat soil-less models as supported, so the
code contradicts its own documentation. -/
theorem c2_soilless_model_raises (pile : PileEmb) (x2mesh : List ℚ) (coarseness : ℚ) :
    modelCreate pile none x2mesh coarseness = .error .attributeError := rfl
